import Mathlib

/-!
Verification of the bare-citation scanner of `bibtex_mcp/client.py`
(`BibTexClient.scan_bare_citations` and its two class-level patterns
`NARRATIVE_PATTERN` and `PARENTHETICAL_PATTERN`).

The Python function is embedded shallowly:

* a document is a `List Char`; the scanner splits it on newline characters
  exactly as `content.split("\n")` does;
* each regular expression of the source is compiled by hand into a
  backtracking matcher in continuation-passing style (`Matcher` below);
  the combinators reproduce Python `re` semantics: alternation tries the
  left branch first, greedy quantifiers try the longest repetition first,
  lazy quantifiers the shortest, and failure backtracks;
* character classes are the ASCII readings of `[A-Z]`, `[a-z]`, `\d`,
  `\s`, `[a-zA-Z'-]`; the manuscripts the tool scans are ASCII prose, so
  no claim in question depends on the non-ASCII fringe of those classes;
* `re.finditer` is the usual left-to-right non-overlapping scan, and
  `re.search`/`re.match`/`re.split`/`re.sub` are embedded by the same
  scheme where the scanner uses them on its secondary patterns;
* the file-system is a partial map from paths to contents, so the one
  fallible step of the source (`Path(path).exists()` / `read_text`)
  becomes a `Except` value.

Stars carry explicit fuel; every starred sub-pattern of the source
consumes at least one character per repetition, so fuel `length + 1`
never runs out and the fueled matcher agrees with the unbounded
backtracking search.
-/

/-- The two values the source stores in the `citation_type` field. -/
inductive CitKind where
  | narrative
  | parenthetical
deriving DecidableEq

/-- One detected citation, the dict appended to `citations` in
`scan_bare_citations` (the source's p-r-e-f-i-x key is spelled `pfx`
here because Lean reserves that word). -/
structure Citation where
  text : List Char
  line : Nat
  column : Nat
  authors : List (List Char)
  year : List Char
  citation_type : CitKind
  has_locator : Bool
  locator : List Char
  pfx : List Char
  suffix : List Char
  is_possessive : Bool
deriving DecidableEq

/-- Python `\s` on the ASCII range. -/
def isWsChar (c : Char) : Bool :=
  c = ' ' || c = '\t' || c = '\n' || c = '\r' || c = '\x0b' || c = '\x0c'

/-- `[A-Z]`. -/
def isUpperAZ (c : Char) : Bool := 'A' ≤ c && c ≤ 'Z'

/-- `[a-z]`. -/
def isLowerAZ (c : Char) : Bool := 'a' ≤ c && c ≤ 'z'

/-- `\d`. -/
def isDigit09 (c : Char) : Bool := '0' ≤ c && c ≤ '9'

/-- The apostrophe character. -/
def apos : Char := '\''

/-- `[a-zA-Z'-]`, the character class of name tokens. -/
def isNameChar (c : Char) : Bool := isUpperAZ c || isLowerAZ c || c = apos || c = '-'

/-- `[-\s]`. -/
def isDashWs (c : Char) : Bool := c = '-' || isWsChar c

/-- `[^)]`. -/
def isNotClose (c : Char) : Bool := !(c = ')')

/-- Python's `pat in s` substring test. -/
def hasSub (pat : List Char) : List Char → Bool
  | [] => pat.isPrefixOf ([] : List Char)
  | c :: rest => pat.isPrefixOf (c :: rest) || hasSub pat rest

/-- Python's `str.strip()` on the ASCII whitespace class. -/
def pyStrip (cs : List Char) : List Char :=
  ((cs.dropWhile isWsChar).reverse.dropWhile isWsChar).reverse

/-- Python's `str.lower()` on the ASCII range. -/
def lowerAll (cs : List Char) : List Char := cs.map Char.toLower

/-- `content.split("\n")`. -/
def splitNl : List Char → List (List Char)
  | [] => [[]]
  | c :: rest =>
    if c = '\n' then [] :: splitNl rest
    else
      match splitNl rest with
      | l :: ls => (c :: l) :: ls
      | [] => [[c]]

/-- A backtracking matcher in continuation-passing style.  `m cs k`
tries to match a pattern at the head of `cs`; every way of matching is
offered to the continuation `k` in Python preference order, and the
first `some` answer wins. -/
abbrev Matcher : Type := List Char → (List Char → Option (List Char)) → Option (List Char)

/-- A single character of a class. -/
def mChr (p : Char → Bool) : Matcher := fun cs k =>
  match cs with
  | [] => none
  | c :: rest => if p c then k rest else none

/-- A literal string. -/
def mStr (lit : List Char) : Matcher := fun cs k =>
  if lit.isPrefixOf cs then k (cs.drop lit.length) else none

/-- A literal string under `re.IGNORECASE`. -/
def mStrCI (lit : List Char) : Matcher := fun cs k =>
  if lit.length ≤ cs.length && lowerAll (cs.take lit.length) = lowerAll lit then
    k (cs.drop lit.length)
  else none

/-- Concatenation. -/
def mSeq (a b : Matcher) : Matcher := fun cs k => a cs (fun cs2 => b cs2 k)

/-- Alternation, left branch preferred. -/
def mAlt (a b : Matcher) : Matcher := fun cs k =>
  (a cs k).orElse (fun _ => b cs k)

/-- Greedy `?`. -/
def mOpt (a : Matcher) : Matcher := fun cs k =>
  (a cs k).orElse (fun _ => k cs)

/-- The lookahead `(?=[A-Z])`. -/
def mLookUpper : Matcher := fun cs k =>
  match cs with
  | [] => none
  | c :: _ => if isUpperAZ c then k cs else none

/-- Greedy `*`: longest repetition first, with fuel. -/
def mStar (a : Matcher) : Nat → Matcher
  | 0 => fun cs k => k cs
  | n + 1 => fun cs k => (a cs (fun cs2 => mStar a n cs2 k)).orElse (fun _ => k cs)

/-- Lazy `*?`: shortest repetition first, with fuel. -/
def mStarL (a : Matcher) : Nat → Matcher
  | 0 => fun cs k => k cs
  | n + 1 => fun cs k => (k cs).orElse (fun _ => a cs (fun cs2 => mStarL a n cs2 k))

/-- `\s+`. -/
def wsPlus (f : Nat) : Matcher := mSeq (mChr isWsChar) (mStar (mChr isWsChar) f)

/-- `\s*`. -/
def wsStar (f : Nat) : Matcher := mStar (mChr isWsChar) f

/-- `\d+`. -/
def digitPlus (f : Nat) : Matcher := mSeq (mChr isDigit09) (mStar (mChr isDigit09) f)

/-- `\d{4}`. -/
def digit4 : Matcher :=
  mSeq (mChr isDigit09) (mSeq (mChr isDigit09) (mSeq (mChr isDigit09) (mChr isDigit09)))

/-- `[A-Z][a-zA-Z'-]+`, the basic capitalized name token. -/
def nameTok (f : Nat) : Matcher :=
  mSeq (mChr isUpperAZ) (mSeq (mChr isNameChar) (mStar (mChr isNameChar) f))

/-- `[-\s]+[a-z]+`, one lowercase continuation word. -/
def lowerCont (f : Nat) : Matcher :=
  mSeq (mSeq (mChr isDashWs) (mStar (mChr isDashWs) f))
    (mSeq (mChr isLowerAZ) (mStar (mChr isLowerAZ) f))

/-- `[A-Z][a-zA-Z'-]+(?:[-\s]+[a-z]+)*`, the author-token pattern used
by `NARRATIVE_PATTERN` and by both author-extraction loops. -/
def nameFull (f : Nat) : Matcher := mSeq (nameTok f) (mStar (lowerCont f) f)

/-- `forthcoming` as a character list. -/
def fortLit : List Char := ( "forthcoming" : String).toList

/-- `(?:forthcoming|\d{4}[a-z]?)`, the year expression of both
top-level patterns. -/
def yearCore : Matcher :=
  mAlt (mStr fortLit) (mSeq digit4 (mOpt (mChr isLowerAZ)))

/-- `(?:,\s+and|\s+and|,|\s+&)\s+`, the narrative author connector. -/
def narrConn (f : Nat) : Matcher :=
  mSeq
    (mAlt (mSeq (mChr (· = ',')) (mSeq (wsPlus f) (mStr ( "and" : String).toList)))
      (mAlt (mSeq (wsPlus f) (mStr ( "and" : String).toList))
        (mAlt (mChr (· = ',')) (mSeq (wsPlus f) (mChr (· = '&'))))))
    (wsPlus f)

/-- `(?:\s+et\s+al\.?)?`. -/
def etAlOpt (f : Nat) : Matcher :=
  mOpt (mSeq (wsPlus f)
    (mSeq (mStr ( "et" : String).toList)
      (mSeq (wsPlus f) (mSeq (mStr ( "al" : String).toList) (mOpt (mChr (· = '.')))))))

/-- `(?:,\s*(?:p+\.?|pp\.?|ch\.?)\s*\d+(?:\-\d+)?)?`, the optional
locator inside the narrative year parenthesis. -/
def narrLocOpt (f : Nat) : Matcher :=
  mOpt (mSeq (mChr (· = ','))
    (mSeq (wsStar f)
      (mSeq
        (mAlt (mSeq (mSeq (mChr (· = 'p')) (mStar (mChr (· = 'p')) f)) (mOpt (mChr (· = '.'))))
          (mAlt (mSeq (mStr ( "pp" : String).toList) (mOpt (mChr (· = '.'))))
            (mSeq (mStr ( "ch" : String).toList) (mOpt (mChr (· = '.'))))))
        (mSeq (wsStar f) (mSeq (digitPlus f) (mOpt (mSeq (mChr (· = '-')) (digitPlus f))))))))

/-- `[^)]*\)`, the common closing tail of both top-level patterns. -/
def closeTail (f : Nat) : Matcher :=
  mSeq (mStar (mChr isNotClose) f) (mChr (· = ')'))

/-- The author run of `NARRATIVE_PATTERN`. -/
def narrAuthors (f : Nat) : Matcher :=
  mSeq (nameFull f) (mStar (mSeq (narrConn f) (nameFull f)) f)

/-- `\s*\((?:forthcoming|\d{4}[a-z]?)(?:,\s*(?:p+\.?|pp\.?|ch\.?)\s*\d+(?:\-\d+)?)?[^)]*\)`,
the tail of `NARRATIVE_PATTERN` after the authors and optional et-al. -/
def narrTail (f : Nat) : Matcher :=
  mSeq (wsStar f)
    (mSeq (mChr (· = '(')) (mSeq yearCore (mSeq (narrLocOpt f) (closeTail f))))

/-- The whole `NARRATIVE_PATTERN`. -/
def narrM (f : Nat) : Matcher :=
  mSeq (narrAuthors f) (mSeq (etAlOpt f) (narrTail f))

/-- `(?:\s+and\s+|\s+&\s+|,\s+|\s+(?=[A-Z]))`, the parenthetical author
connector (also the pattern `re.split` is called with). -/
def parenConn (f : Nat) : Matcher :=
  mAlt (mSeq (wsPlus f) (mSeq (mStr ( "and" : String).toList) (wsPlus f)))
    (mAlt (mSeq (wsPlus f) (mSeq (mChr (· = '&')) (wsPlus f)))
      (mAlt (mSeq (mChr (· = ',')) (wsPlus f))
        (mSeq (wsPlus f) mLookUpper)))

/-- The whole `PARENTHETICAL_PATTERN`. -/
def parenM (f : Nat) : Matcher :=
  mSeq (mChr (· = '('))
    (mSeq (mStarL (mChr isNotClose) f)
      (mSeq (nameTok f)
        (mSeq (mStar (mSeq (parenConn f) (nameTok f)) f)
          (mSeq (etAlOpt f)
            (mSeq (wsStar f)
              (mSeq (mOpt (mChr (· = ',')))
                (mSeq (wsStar f) (mSeq yearCore (closeTail f)))))))))

/-- `re.finditer`: scan left to right, at each position take the
backtracking-preferred match, continue after it.  Every pattern this is
used with consumes at least one character, so the `len = 0` branch is
never taken; it only shapes the recursion. -/
def findAll (m : Matcher) : Nat → Nat → List Char → List (Nat × List Char)
  | 0, _, _ => []
  | fuel + 1, i, cs =>
    match m cs some with
    | some rest =>
      if cs.length - rest.length = 0 then []
      else
        (i, cs.take (cs.length - rest.length)) ::
          findAll m fuel (i + (cs.length - rest.length)) rest
    | none =>
      match cs with
      | [] => []
      | _ :: tl => findAll m fuel (i + 1) tl

/-- `re.search` returning the matched text of the first match. -/
def searchFirst (m : Matcher) : Nat → List Char → Option (List Char)
  | 0, _ => none
  | fuel + 1, cs =>
    match m cs some with
    | some rest => some (cs.take (cs.length - rest.length))
    | none =>
      match cs with
      | [] => none
      | _ :: tl => searchFirst m fuel tl

/-- `(\d{4}|forthcoming)` tried at one position, in the alternation
order of the two secondary year patterns (digits first). -/
def yearTokenAt (cs : List Char) : Option (List Char) :=
  if (cs.take 4).length = 4 && (cs.take 4).all isDigit09 then some (cs.take 4)
  else if fortLit.isPrefixOf cs then some fortLit
  else none

/-- `re.search(r"\((\d{4}|forthcoming)", text)` returning group 1: the
first `(` that is followed by a year token. -/
def searchOpenYear : List Char → Option (List Char)
  | [] => none
  | c :: rest =>
    if c = '(' then
      match yearTokenAt rest with
      | some g => some g
      | none => searchOpenYear rest
    else searchOpenYear rest

/-- `re.search(r"(\d{4}|forthcoming)", content)` returning group 1. -/
def searchYear : List Char → Option (List Char)
  | [] => none
  | c :: rest =>
    match yearTokenAt (c :: rest) with
    | some g => some g
    | none => searchYear rest

/-- Does `\(\d{4}\-\d{4}\)` match at the head of `cs`? -/
def yrParenAt (cs : List Char) : Bool :=
  match cs with
  | '(' :: a :: b :: c :: d :: '-' :: e :: f :: g :: h :: ')' :: _ =>
    isDigit09 a && isDigit09 b && isDigit09 c && isDigit09 d &&
      isDigit09 e && isDigit09 f && isDigit09 g && isDigit09 h
  | _ => false

/-- `re.search(r"\(\d{4}\-\d{4}\)", text)` as a Boolean, the narrative
year-range exclusion of the source. -/
def hasYrParen : List Char → Bool
  | [] => false
  | c :: rest => yrParenAt (c :: rest) || hasYrParen rest

/-- `re.match(r"^\d{4}\-\d{4}$", s)` as a Boolean, the parenthetical
year-range exclusion (applied to the stripped content). -/
def isYrMatch (cs : List Char) : Bool :=
  match cs with
  | [a, b, c, d, '-', e, f, g, h] =>
    isDigit09 a && isDigit09 b && isDigit09 c && isDigit09 d &&
      isDigit09 e && isDigit09 f && isDigit09 g && isDigit09 h
  | _ => false

/-- Python `text.find(c)`. -/
def pyFindChar (c : Char) : List Char → Option Nat
  | [] => none
  | d :: rest =>
    if d = c then some 0
    else
      match pyFindChar c rest with
      | some i => some (i + 1)
      | none => none

/-- `text[:i]` where `i` is the result of `find` — Python's `-1`
sentinel slices off the last character. -/
def sliceTo (cs : List Char) : Option Nat → List Char
  | some i => cs.take i
  | none => cs.dropLast

/-- The cleanup of one narrative author token: strip it, then strip a
trailing `" and"` artifact. -/
def narrClean (tok : List Char) : List Char :=
  if ( " and" : String).toList.isSuffixOf (pyStrip tok) then
    pyStrip ((pyStrip tok).take ((pyStrip tok).length - 4))
  else pyStrip tok

/-- One step of the narrative author loop: clean the token, reject the
connective words, append if new. -/
def narrAuthorStep (authors : List (List Char)) (tok : List Char) : List (List Char) :=
  if lowerAll (narrClean tok) = ( "et" : String).toList ||
      lowerAll (narrClean tok) = ( "al" : String).toList ||
      lowerAll (narrClean tok) = ( "and" : String).toList ||
      lowerAll (narrClean tok) = ( "&" : String).toList then
    authors
  else if narrClean tok ∈ authors then authors
  else authors ++ [narrClean tok]

/-- The narrative author extraction: tokens of the text before the first
`(`, folded through `narrAuthorStep`. -/
def narrAuthorsOf (t : List Char) : List (List Char) :=
  let authorText := pyStrip (sliceTo t (pyFindChar '(' t))
  ((findAll (nameFull (authorText.length + 1)) (authorText.length + 1) 0 authorText).map
    Prod.snd).foldl narrAuthorStep []

/-- The locator pattern `(p+\.\s*\d+|pp\.\s*\d+-\d+|ch\.\s*\d+)` under
`re.IGNORECASE`. -/
def locM (f : Nat) : Matcher :=
  mAlt
    (mSeq (mSeq (mChr (fun c => c = 'p' || c = 'P')) (mStar (mChr (fun c => c = 'p' || c = 'P')) f))
      (mSeq (mChr (· = '.')) (mSeq (wsStar f) (digitPlus f))))
    (mAlt
      (mSeq (mStrCI ( "pp" : String).toList)
        (mSeq (mChr (· = '.'))
          (mSeq (wsStar f) (mSeq (digitPlus f) (mSeq (mChr (· = '-')) (digitPlus f))))))
      (mSeq (mStrCI ( "ch" : String).toList)
        (mSeq (mChr (· = '.')) (mSeq (wsStar f) (digitPlus f)))))

/-- The locator search; empty when the pattern is absent. -/
def locatorOf (t : List Char) : List Char :=
  match searchFirst (locM (t.length + 1)) (t.length + 1) t with
  | some g => g
  | none => []

/-- `re.match(r"^(see|e\.g\.|i\.e\.|cf\.)\s+", content, re.IGNORECASE)`:
the alternation is run at the head of the content and must be followed
by whitespace; the result is the consumed phrase, verbatim. -/
def pfxCore (ct : List Char) : Option (List Char) :=
  (mAlt (mStrCI ( "see" : String).toList)
    (mAlt (mStrCI ( "e.g." : String).toList)
      (mAlt (mStrCI ( "i.e." : String).toList) (mStrCI ( "cf." : String).toList)))) ct
    (fun rest =>
      match rest with
      | [] => none
      | c :: _ => if isWsChar c then some rest else none)

/-- Group 1 of the signal-phrase match, or empty. -/
def pfxOf (ct : List Char) : List Char :=
  match pfxCore ct with
  | some rest => ct.take (ct.length - rest.length)
  | none => []

/-- `\s*(.+)$` run at a position just after a semicolon: greedy
whitespace, then a nonempty remainder, backtracking one whitespace
character when the remainder would be empty. -/
def wsThenRest : List Char → Option (List Char)
  | [] => none
  | c :: rest =>
    if isWsChar c then
      match wsThenRest rest with
      | some g => some g
      | none => some (c :: rest)
    else some (c :: rest)

/-- `re.search(r";\s*(.+)$", content)` returning group 1: the leftmost
semicolon whose tail admits the pattern. -/
def semiSearch : List Char → Option (List Char)
  | [] => none
  | c :: rest =>
    if c = ';' then
      match wsThenRest rest with
      | some g => some g
      | none => semiSearch rest
    else semiSearch rest

/-- The suffix extraction: group 1 of the semicolon search, stripped. -/
def suffixOf (ct : List Char) : List Char :=
  match semiSearch ct with
  | some g => pyStrip g
  | none => []

/-- `re.sub(r"\s+et\s+al\.?", "", content)` tried at one position:
if the et-al pattern matches here, the remainder after it. -/
def etAlSubAt (cs : List Char) : Option (List Char) :=
  (mSeq (wsPlus (cs.length + 1))
    (mSeq (mStr ( "et" : String).toList)
      (mSeq (wsPlus (cs.length + 1))
        (mSeq (mStr ( "al" : String).toList) (mOpt (mChr (· = '.'))))))) cs some

/-- `re.sub(r"\s+et\s+al\.?", "", content)`: delete every occurrence,
scanning left to right. -/
def subEtAl : Nat → List Char → List Char
  | 0, cs => cs
  | _ + 1, [] => []
  | fuel + 1, c :: rest =>
    match etAlSubAt (c :: rest) with
    | some r2 => subEtAl fuel r2
    | none => c :: subEtAl fuel rest

/-- `re.split` with the parenthetical connector pattern: the pieces of
`cs` between consecutive matches. -/
def pySplit : Nat → List Char → List Char → List (List Char)
  | 0, acc, cs => [acc.reverse ++ cs]
  | _ + 1, acc, [] => [acc.reverse]
  | fuel + 1, acc, c :: rest =>
    match parenConn ((c :: rest).length + 1) (c :: rest) some with
    | some r2 => acc.reverse :: pySplit fuel [] r2
    | none => pySplit fuel (c :: acc) rest

/-- `re.match(r"^\d{4}|forthcoming", pa)` as a Boolean. -/
def startsYearOrFort (pa : List Char) : Bool :=
  ((pa.take 4).length = 4 && (pa.take 4).all isDigit09) || fortLit.isPrefixOf pa

/-- The inner loop over the author tokens of one split part: the first
token that passes the filters and is new is appended and the loop
breaks; duplicate tokens keep the loop going without appending. -/
def partLoop : List (List Char) → List (List Char) → List (List Char)
  | authors, [] => authors
  | authors, tok :: rest =>
    if !startsYearOrFort (pyStrip tok) && !(lowerAll (pyStrip tok) = ( "et" : String).toList) &&
        !(lowerAll (pyStrip tok) = ( "al" : String).toList) then
      if pyStrip tok ∈ authors then partLoop authors rest
      else authors ++ [pyStrip tok]
    else partLoop authors rest

/-- The author tokens of one split part (the part is stripped first,
then scanned with the author-token pattern). -/
def partToks (part : List Char) : List (List Char) :=
  let p := pyStrip part
  (findAll (nameFull (p.length + 1)) (p.length + 1) 0 p).map Prod.snd

/-- The parenthetical author extraction: strip et-al occurrences, split
on the connector pattern, and run the token loop over each part. -/
def parenAuthorsOf (ct : List Char) : List (List Char) :=
  let clean := subEtAl (ct.length + 1) ct
  (pySplit (clean.length + 1) [] clean).foldl (fun authors part => partLoop authors (partToks part)) []

/-- The dict appended for one narrative match. -/
def mkNarr (n col : Nat) (t : List Char) : Citation :=
  { text := t
    line := n
    column := col
    authors := narrAuthorsOf t
    year := (match searchOpenYear t with | some g => g | none => [])
    citation_type := CitKind.narrative
    has_locator := !(locatorOf t).isEmpty
    locator := locatorOf t
    pfx := []
    suffix := []
    is_possessive := hasSub [apos, 's'] t }

/-- The dict appended for one parenthetical match; the content is the
matched text without its outer parentheses. -/
def mkParen (n col : Nat) (t : List Char) : Citation :=
  let ct := (t.drop 1).dropLast
  { text := t
    line := n
    column := col
    authors := parenAuthorsOf ct
    year := (match searchYear ct with | some g => g | none => [])
    citation_type := CitKind.parenthetical
    has_locator := !(locatorOf ct).isEmpty
    locator := locatorOf ct
    pfx := pfxOf ct
    suffix := suffixOf ct
    is_possessive := false }

/-- The narrative pass over one line: every finditer match that does not
contain a `(dddd-dddd)` span becomes a citation. -/
def narrCitations (n : Nat) (l : List Char) : List Citation :=
  (findAll (narrM (l.length + 1)) (l.length + 1) 0 l).filterMap (fun pr =>
    if hasYrParen pr.2 then none else some (mkNarr n pr.1 pr.2))

/-- The parenthetical pass over one line: every finditer match whose
stripped content is not exactly `dddd-dddd` becomes a citation. -/
def parenCitations (n : Nat) (l : List Char) : List Citation :=
  (findAll (parenM (l.length + 1)) (l.length + 1) 0 l).filterMap (fun pr =>
    if isYrMatch (pyStrip ((pr.2.drop 1).dropLast)) then none
    else some (mkParen n pr.1 pr.2))

/-- `re.search(r"##\s+.*[Aa]cknowledg", line)`: the literal tail of the
acknowledgments word. -/
def ackWord : List Char := ( "cknowledg" : String).toList

/-- Is there a position whose character is `A` or `a` followed by
`cknowledg`? -/
def hasAckTail : List Char → Bool
  | [] => false
  | c :: rest => ((c = 'A' || c = 'a') && ackWord.isPrefixOf rest) || hasAckTail rest

/-- `re.search(r"##\s+.*[Aa]cknowledg", line)` as a Boolean: two hashes,
a whitespace character, and the acknowledgments word anywhere later. -/
def hasAckHeading : List Char → Bool
  | [] => false
  | c1 :: rest =>
    (match rest with
      | c2 :: c3 :: rest2 => c1 = '#' && c2 = '#' && isWsChar c3 && hasAckTail rest2
      | _ => false) ||
    hasAckHeading rest

/-- `re.search(r"##\s+", line)` as a Boolean. -/
def hasHeading : List Char → Bool
  | [] => false
  | c1 :: rest =>
    (match rest with
      | c2 :: c3 :: _ => c1 = '#' && c2 = '#' && isWsChar c3
      | _ => false) ||
    hasHeading rest

/-- The literal `\begin{thebibliography}`. -/
def bibBeginLit : List Char := ( "\\begin\x7bthebibliography\x7d" : String).toList

/-- The literal `\end{thebibliography}`. -/
def bibEndLit : List Char := ( "\\end\x7bthebibliography\x7d" : String).toList

/-- The literal `\cite`. -/
def citeLit : List Char := ( "\\cite" : String).toList

/-- The acknowledgments flag after the heading-terminator check of one
iteration (the branch that clears the flag without a `continue`). -/
def ackAfter (ack : Bool) (l : List Char) : Bool :=
  if ack && hasHeading l then false else ack

/-- The section-tracker transition of one loop iteration: the pair is
`(in_acknowledgments, in_bibliography)` and the branch order is that of
the source. -/
def stepSt : Bool × Bool → List Char → Bool × Bool
  | (ack, bib), l =>
    if hasAckHeading l then (true, bib)
    else if hasSub bibBeginLit l then (ackAfter ack l, true)
    else if hasSub bibEndLit l then (ackAfter ack l, false)
    else (ackAfter ack l, bib)

/-- The citations one loop iteration appends: empty on every `continue`
branch of the source, both passes otherwise. -/
def emitLine : Bool × Bool → Nat → List Char → List Citation
  | (ack, bib), n, l =>
    if hasAckHeading l then []
    else if hasSub bibBeginLit l then []
    else if hasSub bibEndLit l then []
    else if ackAfter ack l || bib then []
    else if l.contains '@' || hasSub citeLit l then []
    else narrCitations n l ++ parenCitations n l

/-- The line loop of `scan_bare_citations`, lines numbered from `n`. -/
def scanLines : Nat → Bool × Bool → List (List Char) → List Citation
  | _, _, [] => []
  | n, st, l :: ls => emitLine st n l ++ scanLines (n + 1) (stepSt st l) ls

/-- The whole scan of one document content. -/
def scanContent (content : List Char) : List Citation :=
  scanLines 1 (false, false) (splitNl content)

/-- The error taxonomy of the client relevant to the scan. -/
inductive BibErr where
  | fileNotFound (path : List Char)
deriving DecidableEq

/-- `scan_bare_citations` itself: a file system is a partial map from
paths to contents; a missing path raises `FileNotFoundError`, otherwise
the content is read and scanned. -/
def scan_bare_citations (fs : List Char → Option (List Char)) (path : List Char) :
    Except BibErr (List Citation) :=
  match fs path with
  | none => Except.error (BibErr.fileNotFound path)
  | some content => Except.ok (scanContent content)

/-- Unpacking one narrative citation: it comes from a finditer match
that survived the year-range exclusion. -/
theorem mem_narrCitations {c : Citation} {n : Nat} {l : List Char}
    (h : c ∈ narrCitations n l) :
    ∃ col t, (col, t) ∈ findAll (narrM (l.length + 1)) (l.length + 1) 0 l ∧
      hasYrParen t = false ∧ c = mkNarr n col t := by
  simp only [narrCitations, List.mem_filterMap] at h
  obtain ⟨⟨col, t⟩, hmem, hf⟩ := h
  by_cases hg : hasYrParen t = true
  · simp [hg] at hf
  · refine ⟨col, t, hmem, by simpa using hg, ?_⟩
    simp only [Bool.not_eq_true] at hg
    simp [hg] at hf
    exact hf.symm

/-- Unpacking one parenthetical citation: it comes from a finditer match
that survived the year-range exclusion. -/
theorem mem_parenCitations {c : Citation} {n : Nat} {l : List Char}
    (h : c ∈ parenCitations n l) :
    ∃ col t, (col, t) ∈ findAll (parenM (l.length + 1)) (l.length + 1) 0 l ∧
      isYrMatch (pyStrip ((t.drop 1).dropLast)) = false ∧ c = mkParen n col t := by
  simp only [parenCitations, List.mem_filterMap] at h
  obtain ⟨⟨col, t⟩, hmem, hf⟩ := h
  split at hf
  · exact absurd hf (by simp)
  · next hg =>
      exact ⟨col, t, hmem, by simpa using hg, (Option.some.inj hf).symm⟩

/-- Unpacking one emitted citation: the line passed every suppression
check and the citation comes from one of the two passes. -/
theorem mem_emitLine {st : Bool × Bool} {n : Nat} {l : List Char} {c : Citation}
    (h : c ∈ emitLine st n l) :
    (c ∈ narrCitations n l ∨ c ∈ parenCitations n l) ∧
      hasAckHeading l = false ∧ (ackAfter st.1 l || st.2) = false ∧
      l.contains '@' = false ∧ hasSub citeLit l = false := by
  obtain ⟨a, b⟩ := st
  simp only [emitLine] at h
  split_ifs at h with h1 h2 h3 h4 h5
  · simp at h
  · simp at h
  · simp at h
  · simp at h
  · simp at h
  · simp only [Bool.or_eq_true, not_or, Bool.not_eq_true] at h5
    exact ⟨List.mem_append.mp h, by simpa using h1, by simpa using h4, h5.1, h5.2⟩

/-- Every citation of a narrative pass carries the given line number. -/
theorem narrCitations_line {c : Citation} {n : Nat} {l : List Char}
    (h : c ∈ narrCitations n l) : c.line = n := by
  obtain ⟨col, t, _, _, rfl⟩ := mem_narrCitations h
  rfl

/-- Every citation of a parenthetical pass carries the given line number. -/
theorem parenCitations_line {c : Citation} {n : Nat} {l : List Char}
    (h : c ∈ parenCitations n l) : c.line = n := by
  obtain ⟨col, t, _, _, rfl⟩ := mem_parenCitations h
  rfl

/-- Every emitted citation carries the line number of its iteration. -/
theorem emitLine_line {st : Bool × Bool} {n : Nat} {l : List Char} {c : Citation}
    (h : c ∈ emitLine st n l) : c.line = n := by
  rcases (mem_emitLine h).1 with h' | h'
  · exact narrCitations_line h'
  · exact parenCitations_line h'

/-- Every citation of the line loop comes from the iteration of some
line of the list, with the matching line number. -/
theorem scanLines_mem {c : Citation} :
    ∀ (ls : List (List Char)) (n : Nat) (st : Bool × Bool),
      c ∈ scanLines n st ls →
      ∃ j st', j < ls.length ∧ c ∈ emitLine st' (n + j) (ls.getD j []) := by
  intro ls
  induction ls with
  | nil => intro n st h; simp [scanLines] at h
  | cons l ls ih =>
    intro n st h
    simp only [scanLines, List.mem_append] at h
    rcases h with h | h
    · exact ⟨0, st, by simp, by simpa using h⟩
    · obtain ⟨j, st', hj, hmem⟩ := ih (n + 1) (stepSt st l) h
      exact ⟨j + 1, st', by simpa using hj, by simpa [Nat.add_assoc, Nat.add_comm 1 j] using hmem⟩

/-- Every citation of a whole scan is produced by one of the two passes
over some line. -/
theorem scanContent_mem {c : Citation} {content : List Char}
    (h : c ∈ scanContent content) :
    ∃ n l, (c ∈ narrCitations n l ∨ c ∈ parenCitations n l) := by
  obtain ⟨j, st', _, hmem⟩ := scanLines_mem _ 1 (false, false) h
  exact ⟨1 + j, (splitNl content).getD j [], (mem_emitLine hmem).1⟩

/-- Claim C7: the scan is a deterministic pure function of the document
content — any two invocations that read the same content (same file
system and path or not) return identical citation sequences. -/
theorem c7_scan_deterministic (fs1 fs2 : List Char → Option (List Char))
    (p1 p2 content : List Char)
    (h1 : fs1 p1 = some content) (h2 : fs2 p2 = some content) :
    scan_bare_citations fs1 p1 = scan_bare_citations fs2 p2 := by
  simp [scan_bare_citations, h1, h2]

/-- Witness for C7: the same tiny document scanned through two reads. -/
theorem c7_scan_deterministic_witness :
    ((fun _ => some (( "Suri (2011) x." : String).toList)) ([] : List Char) =
      some (( "Suri (2011) x." : String).toList)) ∧
    scan_bare_citations (fun _ => some (( "Suri (2011) x." : String).toList)) [] =
      scan_bare_citations (fun _ => some (( "Suri (2011) x." : String).toList)) [] :=
  ⟨rfl, c7_scan_deterministic _ _ [] [] (( "Suri (2011) x." : String).toList) rfl rfl⟩

/-- Claim C8: the scan fails exactly when the target path is absent, it
fails with the NotFound condition, and a failed scan carries no citation
sequence at all (the result is either the full scan of the content that
was read, or an error and nothing else). -/
theorem c8_not_found_error (fs : List Char → Option (List Char)) (path : List Char) :
    (fs path = none ∧
      scan_bare_citations fs path = Except.error (BibErr.fileNotFound path)) ∨
    (∃ content, fs path = some content ∧
      scan_bare_citations fs path = Except.ok (scanContent content)) := by
  cases h : fs path with
  | none => exact Or.inl ⟨rfl, by simp [scan_bare_citations, h]⟩
  | some content => exact Or.inr ⟨content, rfl, by simp [scan_bare_citations, h]⟩

/-- Claim C10: type-restricted fields are hard invariants — a narrative
citation always has empty signal-phrase and suffix fields, and a
parenthetical citation always has a false possessive flag. -/
theorem c10_type_restricted_fields (content : List Char) (c : Citation)
    (h : c ∈ scanContent content) :
    (c.citation_type = CitKind.narrative → c.pfx = [] ∧ c.suffix = []) ∧
    (c.citation_type = CitKind.parenthetical → c.is_possessive = false) := by
  obtain ⟨n, l, h'⟩ := scanContent_mem h
  rcases h' with h' | h'
  · obtain ⟨col, t, _, _, rfl⟩ := mem_narrCitations h'
    exact ⟨fun _ => ⟨rfl, rfl⟩, fun hk => nomatch hk⟩
  · obtain ⟨col, t, _, _, rfl⟩ := mem_parenCitations h'
    exact ⟨(fun hk => nomatch hk), fun _ => rfl⟩

/-- Witness for C10: a concrete document with one narrative citation. -/
theorem c10_type_restricted_fields_witness :
    (mkNarr 1 0 (( "Suri (2011)" : String).toList) ∈
      scanContent (( "Suri (2011) demonstrates." : String).toList)) ∧
    (((mkNarr 1 0 (( "Suri (2011)" : String).toList)).citation_type = CitKind.narrative →
      (mkNarr 1 0 (( "Suri (2011)" : String).toList)).pfx = [] ∧
      (mkNarr 1 0 (( "Suri (2011)" : String).toList)).suffix = []) ∧
    ((mkNarr 1 0 (( "Suri (2011)" : String).toList)).citation_type = CitKind.parenthetical →
      (mkNarr 1 0 (( "Suri (2011)" : String).toList)).is_possessive = false)) :=
  ⟨(by decide),
    c10_type_restricted_fields (( "Suri (2011) demonstrates." : String).toList)
      (mkNarr 1 0 (( "Suri (2011)" : String).toList)) (by decide)⟩

/-- Claim C6: a line that contains an at-sign key marker or a
backslash-cite command yields no citation at all, whatever else is on
the line. -/
theorem c6_marker_line_suppressed (content : List Char) (j : Nat)
    (h : ((splitNl content).getD j []).contains '@' = true ∨
      hasSub citeLit ((splitNl content).getD j []) = true) :
    ∀ c ∈ scanContent content, c.line ≠ j + 1 := by
  intro c hc hline
  obtain ⟨j0, st', hj0, hmem⟩ := scanLines_mem (splitNl content) 1 (false, false) hc
  have hl := emitLine_line hmem
  have hj : j0 = j := by omega
  subst hj
  obtain ⟨_, _, _, hat, hcite⟩ := mem_emitLine hmem
  rcases h with h | h
  · rw [hat] at h
    cases h
  · rw [hcite] at h
    cases h

/-- Witness for C6: a line with an at-key and citation-like text still
yields nothing. -/
theorem c6_marker_line_suppressed_witness :
    ((splitNl (( "See @conley2010learning and Smith (2011) here." : String).toList)).getD 0 []).contains '@' = true ∧
    ∀ c ∈ scanContent (( "See @conley2010learning and Smith (2011) here." : String).toList),
      c.line ≠ 0 + 1 :=
  ⟨(by decide),
    c6_marker_line_suppressed (( "See @conley2010learning and Smith (2011) here." : String).toList) 0
      (Or.inl (by decide))⟩

/-- Does the list contain this character? -/
def hasChr (c : Char) : List Char → Bool
  | [] => false
  | d :: rest => d = c || hasChr c rest

/-- Everything after the first semicolon. -/
def afterFirstSemi (ct : List Char) : List Char :=
  (ct.dropWhile (fun c => !(c = ';'))).tail

/-- Everything after the last semicolon. -/
def afterLastSemi (ct : List Char) : List Char :=
  (ct.reverse.takeWhile (fun c => !(c = ';'))).reverse

/-- The suffix the amended claim describes: if the bracketed content
contains a semicolon, everything after the first semicolon with
surrounding whitespace trimmed, otherwise empty. -/
def specSuffixFirst (ct : List Char) : List Char :=
  if hasChr ';' ct then pyStrip (afterFirstSemi ct) else []

/-- The suffix the original claim describes: everything after the last
semicolon, trimmed. -/
def specSuffixLast (ct : List Char) : List Char :=
  if hasChr ';' ct then pyStrip (afterLastSemi ct) else []

/-- Dropping a leading whitespace character does not change a strip. -/
theorem pyStrip_cons_ws {c : Char} (h : isWsChar c = true) (xs : List Char) :
    pyStrip (c :: xs) = pyStrip xs := by
  simp [pyStrip, List.dropWhile_cons, h]

/-- Group 1 of `\s*(.+)$` strips to the same list as its whole input. -/
theorem wsThenRest_strip :
    ∀ {rest g : List Char}, wsThenRest rest = some g → pyStrip g = pyStrip rest := by
  intro rest
  induction rest with
  | nil => intro g h; simp [wsThenRest] at h
  | cons c rest ih =>
    intro g h
    simp only [wsThenRest] at h
    by_cases hw : isWsChar c = true
    · rw [if_pos hw] at h
      cases hr : wsThenRest rest with
      | some g2 =>
        rw [hr] at h
        cases h
        rw [pyStrip_cons_ws hw]
        exact ih hr
      | none =>
        rw [hr] at h
        cases h
        rfl
    · rw [if_neg hw] at h
      cases h
      rfl

/-- `\s*(.+)$` succeeds exactly on nonempty input. -/
theorem wsThenRest_isSome (c : Char) (rest : List Char) :
    (wsThenRest (c :: rest)).isSome = true := by
  simp only [wsThenRest]
  by_cases hw : isWsChar c = true
  · rw [if_pos hw]
    cases hr : wsThenRest rest <;> simp [hr]
  · rw [if_neg hw]
    simp

/-- The embedded suffix extraction computes exactly the
first-semicolon suffix of the amended claim. -/
theorem suffixOf_eq_specFirst : ∀ ct : List Char, suffixOf ct = specSuffixFirst ct := by
  intro ct
  induction ct with
  | nil => rfl
  | cons c rest ih =>
    by_cases hc : c = ';'
    · subst hc
      cases rest with
      | nil => rfl
      | cons r rs =>
        cases hr : wsThenRest (r :: rs) with
        | none => exact absurd (congrArg Option.isSome hr) (by simp [wsThenRest_isSome])
        | some g =>
          have h1 : suffixOf (';' :: r :: rs) = pyStrip g := by
            simp [suffixOf, semiSearch, hr]
          have h2 : specSuffixFirst (';' :: r :: rs) = pyStrip (r :: rs) := by
            simp [specSuffixFirst, hasChr, afterFirstSemi, List.dropWhile_cons]
          rw [h1, h2, wsThenRest_strip hr]
    · have h1 : suffixOf (c :: rest) = suffixOf rest := by
        simp [suffixOf, semiSearch, hc]
      have h2 : specSuffixFirst (c :: rest) = specSuffixFirst rest := by
        simp [specSuffixFirst, hasChr, afterFirstSemi, List.dropWhile_cons, hc]
      rw [h1, h2, ih]

/-- Claim C1 (amended): for a parenthetical citation whose bracketed
content contains a semicolon, the suffix field is everything after the
FIRST semicolon of the content, trimmed; with no semicolon the suffix
is empty — both cases are `specSuffixFirst` of the content. -/
theorem c1_suffix_first_semicolon (content : List Char) (c : Citation)
    (h : c ∈ scanContent content) (hk : c.citation_type = CitKind.parenthetical) :
    c.suffix = specSuffixFirst ((c.text.drop 1).dropLast) := by
  obtain ⟨n, l, h'⟩ := scanContent_mem h
  rcases h' with h' | h'
  · obtain ⟨col, t, _, _, rfl⟩ := mem_narrCitations h'
    exact absurd hk (by exact fun hk => nomatch hk)
  · obtain ⟨col, t, _, _, rfl⟩ := mem_parenCitations h'
    exact suffixOf_eq_specFirst ((t.drop 1).dropLast)

/-- Counterexample for C1 as stated: a parenthetical citation with two
semicolons in its content stores everything after the first semicolon,
not everything after the last one. -/
theorem c1_counterexample :
    (scanContent (( "(see Smith 2000; Jones 2001; emphasis added)" : String).toList)).map
        (fun c => (c.citation_type, c.suffix)) =
      [(CitKind.parenthetical, ( "Jones 2001; emphasis added" : String).toList)] ∧
    hasChr ';'
      (((( "(see Smith 2000; Jones 2001; emphasis added)" : String).toList.drop 1).dropLast)) = true ∧
    specSuffixLast (((( "(see Smith 2000; Jones 2001; emphasis added)" : String).toList.drop 1).dropLast)) =
      ( "emphasis added" : String).toList ∧
    ( "Jones 2001; emphasis added" : String).toList ≠ ( "emphasis added" : String).toList := by
  refine ⟨?_, ?_, ?_, ?_⟩ <;> decide

/-- Witness for C1: the amended statement applied to that document. -/
theorem c1_suffix_first_semicolon_witness :
    (mkParen 1 0 (( "(see Smith 2000; Jones 2001; emphasis added)" : String).toList) ∈
      scanContent (( "(see Smith 2000; Jones 2001; emphasis added)" : String).toList)) ∧
    (mkParen 1 0 (( "(see Smith 2000; Jones 2001; emphasis added)" : String).toList)).suffix =
      specSuffixFirst
        ((((mkParen 1 0 (( "(see Smith 2000; Jones 2001; emphasis added)" : String).toList)).text.drop 1).dropLast)) :=
  ⟨(by decide),
    c1_suffix_first_semicolon (( "(see Smith 2000; Jones 2001; emphasis added)" : String).toList)
      (mkParen 1 0 (( "(see Smith 2000; Jones 2001; emphasis added)" : String).toList))
      (by decide) rfl⟩

/-- Is the head of the list a whitespace character? -/
def wsHead : List Char → Bool
  | [] => false
  | c :: _ => isWsChar c

/-- The amended-claim condition for a signal phrase: the content starts
with the phrase, case-insensitively, followed by a whitespace
character. -/
def startsWithSignal (p ct : List Char) : Bool :=
  (decide (p.length ≤ ct.length) && decide (lowerAll (ct.take p.length) = lowerAll p)) &&
    wsHead (ct.drop p.length)

/-- The fixed signal phrases, in the alternation order of the source. -/
def sigPhrases : List (List Char) :=
  [( "see" : String).toList, ( "e.g." : String).toList,
   ( "i.e." : String).toList, ( "cf." : String).toList]

/-- The signal-phrase field the amended claim describes: the first
phrase of the list that starts the content and is followed by
whitespace, captured verbatim from the content; otherwise empty. -/
def specPfx (ct : List Char) : List Char :=
  match sigPhrases.find? (fun p => startsWithSignal p ct) with
  | some p => ct.take p.length
  | none => []

/-- One case-insensitive literal with the followed-by-whitespace
continuation computes exactly the `startsWithSignal` test. -/
theorem strCI_wsk (lit ct : List Char) :
    mStrCI lit ct
      (fun rest =>
        match rest with
        | [] => none
        | c :: _ => if isWsChar c then some rest else none) =
      (if startsWithSignal lit ct then some (ct.drop lit.length) else none) := by
  have haux : ∀ x : List Char,
      (if (decide (lit.length ≤ ct.length) && decide (lowerAll (ct.take lit.length) = lowerAll lit)) = true then
        (match x with
          | [] => none
          | c :: _ => if isWsChar c = true then some x else none)
      else none) =
      (if ((decide (lit.length ≤ ct.length) && decide (lowerAll (ct.take lit.length) = lowerAll lit)) &&
          (match x with | [] => false | c :: _ => isWsChar c)) = true then some x else none) := by
    intro x
    cases hb : (decide (lit.length ≤ ct.length) && decide (lowerAll (ct.take lit.length) = lowerAll lit)) with
    | false => cases x <;> simp [hb]
    | true =>
      cases x with
      | nil => simp [hb]
      | cons c rest => by_cases hw : isWsChar c = true <;> simp [hb, hw]
  simp only [mStrCI, startsWithSignal, wsHead]
  exact haux (ct.drop lit.length)

/-- The embedded signal-phrase extraction computes exactly the
first-matching-phrase capture of the amended claim. -/
theorem pfxOf_eq_specPfx (ct : List Char) : pfxOf ct = specPfx ct := by
  have hb : ∀ p : List Char, startsWithSignal p ct = true → p.length ≤ ct.length := by
    intro p hp
    have h1 := (Bool.and_eq_true .. ▸ hp).1
    have h2 := (Bool.and_eq_true .. ▸ h1).1
    exact of_decide_eq_true h2
  simp only [pfxOf, pfxCore, mAlt, strCI_wsk, specPfx, sigPhrases, List.find?]
  cases h1 : startsWithSignal (( "see" : String).toList) ct
  · cases h2 : startsWithSignal (( "e.g." : String).toList) ct
    · cases h3 : startsWithSignal (( "i.e." : String).toList) ct
      · cases h4 : startsWithSignal (( "cf." : String).toList) ct
        · simp [Option.orElse]
        · have hb4 := hb _ h4
          simp only [String.toList] at hb4
          simp [Option.orElse]
          omega
      · have hb3 := hb _ h3
        simp only [String.toList] at hb3
        simp [Option.orElse]
        omega
    · have hb2 := hb _ h2
      simp only [String.toList] at hb2
      simp [Option.orElse]
      omega
  · have hb1 := hb _ h1
    simp only [String.toList] at hb1
    simp [Option.orElse]
    omega

/-- Claim C3 (amended): for a parenthetical citation, the
signal-phrase field is the first phrase of "see", "e.g.", "i.e.",
"cf." that begins the bracketed content case-insensitively followed by
whitespace, captured verbatim — a single phrase only, never a chain —
and is empty when no phrase matches. -/
theorem c3_signal_phrase (content : List Char) (c : Citation)
    (h : c ∈ scanContent content) (hk : c.citation_type = CitKind.parenthetical) :
    c.pfx = specPfx ((c.text.drop 1).dropLast) := by
  obtain ⟨n, l, h'⟩ := scanContent_mem h
  rcases h' with h' | h'
  · obtain ⟨col, t, _, _, rfl⟩ := mem_narrCitations h'
    exact absurd hk (by exact fun hk => nomatch hk)
  · obtain ⟨col, t, _, _, rfl⟩ := mem_parenCitations h'
    exact pfxOf_eq_specPfx ((t.drop 1).dropLast)

/-- Counterexample for C3 as stated: content beginning with the chained
phrases captures only the first phrase, not the chain. -/
theorem c3_counterexample :
    (scanContent (( "(see e.g. Smith 2000)" : String).toList)).map
        (fun c => (c.citation_type, c.pfx)) =
      [(CitKind.parenthetical, ( "see" : String).toList)] ∧
    ( "see" : String).toList ≠ ( "see e.g." : String).toList := by
  exact ⟨(by decide), (by decide)⟩

/-- Witness for C3: the amended statement applied to that document. -/
theorem c3_signal_phrase_witness :
    (mkParen 1 0 (( "(see e.g. Smith 2000)" : String).toList) ∈
      scanContent (( "(see e.g. Smith 2000)" : String).toList)) ∧
    (mkParen 1 0 (( "(see e.g. Smith 2000)" : String).toList)).pfx =
      specPfx (((mkParen 1 0 (( "(see e.g. Smith 2000)" : String).toList)).text.drop 1).dropLast) :=
  ⟨(by decide),
    c3_signal_phrase (( "(see e.g. Smith 2000)" : String).toList)
      (mkParen 1 0 (( "(see e.g. Smith 2000)" : String).toList)) (by decide) rfl⟩

/-- An uppercase letter has code point between 65 and 90. -/
theorem char_upper_toNat {c : Char} (h : isUpperAZ c = true) : 65 ≤ c.toNat ∧ c.toNat ≤ 90 := by
  simp only [isUpperAZ, Bool.and_eq_true, decide_eq_true_eq] at h
  obtain ⟨h1, h2⟩ := h
  rw [Char.le_def] at h1 h2
  rw [UInt32.le_def] at h1 h2
  rw [BitVec.le_def] at h1 h2
  exact ⟨h1, h2⟩

/-- `Char.ofNat` below the surrogate range keeps the code point. -/
theorem toNat_ofNat_lt {n : Nat} (h : n < 55296) : (Char.ofNat n).toNat = n := by
  rw [Char.ofNat, dif_pos (Or.inl h)]
  simp [Char.ofNatAux, Char.toNat, UInt32.toNat]

/-- Lowercasing an uppercase letter never yields an ampersand. -/
theorem upper_toLower_ne_amp {c : Char} (h : isUpperAZ c = true) : ¬ (c.toLower = '&') := by
  intro he
  obtain ⟨h1, h2⟩ := char_upper_toNat h
  have hlow : (c.toLower).toNat = c.toNat + 32 := by
    unfold Char.toLower
    rw [if_pos ⟨h1, h2⟩]
    exact toNat_ofNat_lt (by omega)
  rw [he] at hlow
  have hamp : ( '&').toNat = 38 := rfl
  omega

/-- An uppercase letter is not a whitespace character. -/
theorem upper_not_ws {c : Char} (h : isUpperAZ c = true) : isWsChar c = false := by
  cases hw : isWsChar c
  · rfl
  · exfalso
    obtain ⟨h1, _⟩ := char_upper_toNat h
    simp only [isWsChar, Bool.or_eq_true, decide_eq_true_eq] at hw
    rcases hw with ((((h' | h') | h') | h') | h') | h' <;> subst h' <;>
      exact absurd h1 (by decide)

/-- Appending a non-matching element commutes with `dropWhile`. -/
theorem dropWhile_append_single {p : Char → Bool} {c : Char} (h : p c = false) :
    ∀ l : List Char, (l ++ [c]).dropWhile p = l.dropWhile p ++ [c] := by
  intro l
  induction l with
  | nil => simp [List.dropWhile_cons, h]
  | cons a l ih =>
    by_cases ha : p a = true
    · simp [List.dropWhile_cons, ha, ih]
    · simp [List.dropWhile_cons, ha]

/-- Stripping a list that starts with a non-whitespace character keeps
that character in front. -/
theorem pyStrip_cons_of_not_ws {c : Char} (h : isWsChar c = false) (xs : List Char) :
    pyStrip (c :: xs) = c :: (xs.reverse.dropWhile isWsChar).reverse := by
  unfold pyStrip
  rw [List.dropWhile_cons, if_neg (by simp [h]), List.reverse_cons,
    dropWhile_append_single h, List.reverse_append]
  rfl

/-- Unpacking one finditer match: the pattern matched at some suffix of
the line and the matched text is the consumed prefix of that suffix. -/
theorem mem_findAll {m : Matcher} :
    ∀ (fuel i : Nat) (cs : List Char) {col : Nat} {t : List Char},
      (col, t) ∈ findAll m fuel i cs →
      ∃ cs2 r, m cs2 some = some r ∧ t = cs2.take (cs2.length - r.length) ∧
        cs2.length - r.length ≠ 0 := by
  intro fuel
  induction fuel with
  | zero => intro i cs col t h; simp [findAll] at h
  | succ fuel ih =>
    intro i cs col t h
    simp only [findAll] at h
    cases hm : m cs some with
    | some rest =>
      simp only [hm] at h
      split at h
      · simp at h
      · next hne =>
        rcases List.mem_cons.mp h with heq | hmem
        · injection heq with h1 h2
          exact ⟨cs, rest, hm, h2, hne⟩
        · exact ih _ _ hmem
    | none =>
      simp only [hm] at h
      cases cs with
      | nil => simp at h
      | cons c tl => exact ih _ _ h

/-- A successful author-token match starts at an uppercase letter. -/
theorem nameFull_head {f : Nat} {cs r : List Char} {k : List Char → Option (List Char)}
    (h : nameFull f cs k = some r) :
    ∃ c rest, cs = c :: rest ∧ isUpperAZ c = true := by
  cases cs with
  | nil => simp [nameFull, nameTok, mSeq, mChr] at h
  | cons c rest =>
    refine ⟨c, rest, rfl, ?_⟩
    by_cases hc : isUpperAZ c = true
    · exact hc
    · simp [nameFull, nameTok, mSeq, mChr, hc] at h

/-- Every author token found by finditer starts with an uppercase
letter. -/
theorem findAll_nameFull_head {f fuel i : Nat} {cs : List Char} {col : Nat} {t : List Char}
    (h : (col, t) ∈ findAll (nameFull f) fuel i cs) :
    ∃ c rest, t = c :: rest ∧ isUpperAZ c = true := by
  obtain ⟨cs2, r, hm, ht, hne⟩ := mem_findAll _ _ _ h
  obtain ⟨c, rest2, rfl, hc⟩ := nameFull_head hm
  rcases hn : (c :: rest2).length - r.length with _ | n
  · exact absurd hn hne
  · exact ⟨c, rest2.take n, by rw [ht, hn]; rfl, hc⟩

/-- Every token of a parenthetical author part starts with an uppercase
letter. -/
theorem partToks_head {part tok : List Char} (h : tok ∈ partToks part) :
    ∃ c rest, tok = c :: rest ∧ isUpperAZ c = true := by
  simp only [partToks, List.mem_map] at h
  obtain ⟨⟨col, t⟩, hmem, ht⟩ := h
  exact ht ▸ findAll_nameFull_head hmem

/-- What the amended claim asserts of one narrative author entry. -/
def GoodNarrAuthor (a : List Char) : Prop :=
  lowerAll a ≠ ( "et" : String).toList ∧ lowerAll a ≠ ( "al" : String).toList ∧
    lowerAll a ≠ ( "and" : String).toList ∧ lowerAll a ≠ [ '&' ]

/-- What the amended claim asserts of one parenthetical author entry. -/
def GoodParenAuthor (a : List Char) : Prop :=
  lowerAll a ≠ ( "et" : String).toList ∧ lowerAll a ≠ ( "al" : String).toList ∧
    lowerAll a ≠ [ '&' ]

/-- The narrative author step keeps the list duplicate-free. -/
theorem narrAuthorStep_nodup (auth : List (List Char)) (tok : List Char)
    (h : auth.Nodup) : (narrAuthorStep auth tok).Nodup := by
  simp only [narrAuthorStep]
  split
  · exact h
  · split
    · exact h
    · next hnotin =>
      exact List.Nodup.append h (List.nodup_singleton _)
        (fun a ha hb => by simp at hb; subst hb; exact hnotin ha)

/-- A new entry of the narrative author step passes the connective-word
filter. -/
theorem mem_narrAuthorStep {auth : List (List Char)} {tok a : List Char}
    (h : a ∈ narrAuthorStep auth tok) : a ∈ auth ∨ GoodNarrAuthor a := by
  simp only [narrAuthorStep] at h
  split at h
  · exact Or.inl h
  · next hcond =>
    split at h
    · exact Or.inl h
    · rcases List.mem_append.mp h with h' | h'
      · exact Or.inl h'
      · simp only [List.mem_singleton] at h'
        subst h'
        simp only [Bool.or_eq_true, decide_eq_true_eq, not_or] at hcond
        obtain ⟨⟨⟨h1, h2⟩, h3⟩, h4⟩ := hcond
        exact Or.inr ⟨h1, h2, h3, h4⟩

/-- The narrative author fold keeps the invariant of the amended
claim. -/
theorem foldl_narrStep_facts (toks : List (List Char)) :
    ∀ auth : List (List Char), auth.Nodup → (∀ a ∈ auth, GoodNarrAuthor a) →
      (toks.foldl narrAuthorStep auth).Nodup ∧
        ∀ a ∈ toks.foldl narrAuthorStep auth, GoodNarrAuthor a := by
  induction toks with
  | nil => intro auth h1 h2; exact ⟨h1, h2⟩
  | cons tok rest ih =>
    intro auth h1 h2
    refine ih _ (narrAuthorStep_nodup _ _ h1) (fun a ha => ?_)
    rcases mem_narrAuthorStep ha with h' | h'
    · exact h2 a h'
    · exact h'

/-- The narrative author extraction yields a duplicate-free list whose
entries all pass the connective-word filter. -/
theorem narrAuthorsOf_facts (t : List Char) :
    (narrAuthorsOf t).Nodup ∧ ∀ a ∈ narrAuthorsOf t, GoodNarrAuthor a :=
  foldl_narrStep_facts _ [] List.nodup_nil (by simp)

/-- The parenthetical part loop keeps the list duplicate-free. -/
theorem partLoop_nodup : ∀ (toks auth : List (List Char)),
    auth.Nodup → (partLoop auth toks).Nodup := by
  intro toks
  induction toks with
  | nil => intro auth h; exact h
  | cons tok rest ih =>
    intro auth h
    simp only [partLoop]
    split
    · split
      · exact ih auth h
      · next hnotin =>
        exact List.Nodup.append h (List.nodup_singleton _)
          (fun a ha hb => by simp at hb; subst hb; exact hnotin ha)
    · exact ih auth h

/-- A new entry of the parenthetical part loop is a stripped author
token that passes the et-al filter. -/
theorem mem_partLoop : ∀ (toks auth : List (List Char)) (a : List Char),
    a ∈ partLoop auth toks →
    a ∈ auth ∨ ∃ tok, tok ∈ toks ∧ a = pyStrip tok ∧
      lowerAll a ≠ ( "et" : String).toList ∧ lowerAll a ≠ ( "al" : String).toList := by
  intro toks
  induction toks with
  | nil => intro auth a h; exact Or.inl h
  | cons tok rest ih =>
    intro auth a h
    simp only [partLoop] at h
    split at h
    · next hcond =>
      split at h
      · rcases ih auth a h with h' | ⟨tok2, hm, hrest⟩
        · exact Or.inl h'
        · exact Or.inr ⟨tok2, List.mem_cons_of_mem _ hm, hrest⟩
      · rcases List.mem_append.mp h with h' | h'
        · exact Or.inl h'
        · simp only [List.mem_singleton] at h'
          subst h'
          simp only [Bool.and_eq_true, Bool.not_eq_true', decide_eq_false_iff_not] at hcond
          obtain ⟨⟨_, h2⟩, h3⟩ := hcond
          exact Or.inr ⟨tok, List.mem_cons_self .., rfl, h2, h3⟩
    · rcases ih auth a h with h' | ⟨tok2, hm, hrest⟩
      · exact Or.inl h'
      · exact Or.inr ⟨tok2, List.mem_cons_of_mem _ hm, hrest⟩

/-- The fold over the split parts keeps the invariant of the amended
claim: entries are duplicate-free, pass the et-al filter, and never
lowercase to an ampersand because they start at an uppercase letter. -/
theorem foldl_partLoop_facts (parts : List (List Char)) :
    ∀ auth : List (List Char), auth.Nodup → (∀ a ∈ auth, GoodParenAuthor a) →
      (parts.foldl (fun auth part => partLoop auth (partToks part)) auth).Nodup ∧
        ∀ a ∈ parts.foldl (fun auth part => partLoop auth (partToks part)) auth,
          GoodParenAuthor a := by
  induction parts with
  | nil => intro auth h1 h2; exact ⟨h1, h2⟩
  | cons part rest ih =>
    intro auth h1 h2
    refine ih _ (partLoop_nodup _ _ h1) (fun a ha => ?_)
    rcases mem_partLoop _ _ _ ha with h' | ⟨tok, htok, haeq, hne1, hne2⟩
    · exact h2 a h'
    · refine ⟨hne1, hne2, ?_⟩
      obtain ⟨c, rest2, rfl, hc⟩ := partToks_head htok
      rw [haeq, pyStrip_cons_of_not_ws (upper_not_ws hc)]
      intro heq
      simp only [lowerAll, List.map_cons] at heq
      injection heq with he1 he2
      exact upper_toLower_ne_amp hc he1

/-- The parenthetical author extraction yields a duplicate-free list
whose entries pass the filters and never lowercase to an ampersand. -/
theorem parenAuthorsOf_facts (ct : List Char) :
    (parenAuthorsOf ct).Nodup ∧ ∀ a ∈ parenAuthorsOf ct, GoodParenAuthor a :=
  foldl_partLoop_facts _ [] List.nodup_nil (by simp)

/-- Claim C4 (amended): the author list of every citation is
duplicate-free and never contains an entry whose lowercased value is
"et", "al" or the ampersand; a narrative citation moreover never
contains an entry lowercasing to "and" — but a parenthetical citation
can (the word "And" between two capitalized names survives the
parenthetical filter). -/
theorem c4_author_entries (content : List Char) (c : Citation)
    (h : c ∈ scanContent content) :
    c.authors.Nodup ∧
    ∀ a ∈ c.authors,
      lowerAll a ≠ ( "et" : String).toList ∧ lowerAll a ≠ ( "al" : String).toList ∧
      lowerAll a ≠ [ '&' ] ∧
      (c.citation_type = CitKind.narrative → lowerAll a ≠ ( "and" : String).toList) := by
  obtain ⟨n, l, h'⟩ := scanContent_mem h
  rcases h' with h' | h'
  · obtain ⟨col, t, _, _, rfl⟩ := mem_narrCitations h'
    obtain ⟨hnd, hall⟩ := narrAuthorsOf_facts t
    refine ⟨hnd, fun a ha => ?_⟩
    obtain ⟨h1, h2, h3, h4⟩ := hall a ha
    exact ⟨h1, h2, h4, fun _ => h3⟩
  · obtain ⟨col, t, _, _, rfl⟩ := mem_parenCitations h'
    obtain ⟨hnd, hall⟩ := parenAuthorsOf_facts ((t.drop 1).dropLast)
    refine ⟨hnd, fun a ha => ?_⟩
    obtain ⟨h1, h2, h3⟩ := hall a ha
    exact ⟨h1, h2, h3, fun hk => nomatch hk⟩

/-- Counterexample for C4 as stated: the parenthetical author filter
only rejects "et" and "al", so a capitalized "And" between two names
becomes an author entry whose lowercased value is "and". -/
theorem c4_counterexample :
    (scanContent (( "(Smith And Jones 2000)" : String).toList)).map (fun c => c.authors) =
      [[( "Smith" : String).toList, ( "And" : String).toList, ( "Jones" : String).toList]] ∧
    lowerAll (( "And" : String).toList) = ( "and" : String).toList := by
  exact ⟨(by decide), (by decide)⟩

/-- Witness for C4: the amended statement applied to a concrete
document. -/
theorem c4_author_entries_witness :
    (mkNarr 1 0 (( "Suri (2011)" : String).toList) ∈
      scanContent (( "Suri (2011) demonstrates." : String).toList)) ∧
    ((mkNarr 1 0 (( "Suri (2011)" : String).toList)).authors.Nodup ∧
      ∀ a ∈ (mkNarr 1 0 (( "Suri (2011)" : String).toList)).authors,
        lowerAll a ≠ ( "et" : String).toList ∧ lowerAll a ≠ ( "al" : String).toList ∧
        lowerAll a ≠ [ '&' ] ∧
        ((mkNarr 1 0 (( "Suri (2011)" : String).toList)).citation_type = CitKind.narrative →
          lowerAll a ≠ ( "and" : String).toList)) :=
  ⟨(by decide),
    c4_author_entries (( "Suri (2011) demonstrates." : String).toList)
      (mkNarr 1 0 (( "Suri (2011)" : String).toList)) (by decide)⟩

/-- The acknowledgments-flag transition of the claim: an
acknowledgments heading sets it, any other two-hash heading clears it
while set. -/
def ackStep (st : Bool) (l : List Char) : Bool :=
  if hasAckHeading l then true else if st && hasHeading l then false else st

/-- The bibliography-flag transition: untouched on an acknowledgments
heading (that iteration stops early), otherwise set and cleared by the
begin and end markers. -/
def bibStep (st : Bool) (l : List Char) : Bool :=
  if hasAckHeading l then st
  else if hasSub bibBeginLit l then true
  else if hasSub bibEndLit l then false
  else st

/-- The acknowledgments flag seen by line `j` (computed from the lines
before it). -/
def ackStateAt (lines : List (List Char)) (j : Nat) : Bool :=
  (lines.take j).foldl ackStep false

/-- The bibliography flag seen by line `j`. -/
def bibStateAt (lines : List (List Char)) (j : Nat) : Bool :=
  (lines.take j).foldl bibStep false

/-- The tracker transition is the pair of the two flag transitions. -/
theorem stepSt_pair (a b : Bool) (l : List Char) :
    stepSt (a, b) l = (ackStep a l, bibStep b l) := by
  simp only [stepSt, ackStep, bibStep, ackAfter]
  split_ifs <;> rfl

/-- Folding the tracker is folding the two flags independently. -/
theorem foldl_stepSt_pair : ∀ (ls : List (List Char)) (a b : Bool),
    ls.foldl stepSt (a, b) = (ls.foldl ackStep a, ls.foldl bibStep b) := by
  intro ls
  induction ls with
  | nil => intro a b; rfl
  | cons l ls ih =>
    intro a b
    rw [List.foldl_cons, List.foldl_cons, List.foldl_cons, stepSt_pair, ih]

/-- Filtering one iteration's citations for a different line number
gives nothing. -/
theorem filter_emitLine_ne {st : Bool × Bool} {n m : Nat} {l : List Char} (hne : ¬ m = n) :
    (emitLine st n l).filter (fun c => decide (c.line = m)) = [] := by
  rw [List.filter_eq_nil_iff]
  intro c hc
  simp [emitLine_line hc]
  omega

/-- Filtering one iteration's citations for its own line number keeps
them all. -/
theorem filter_emitLine_self {st : Bool × Bool} {n : Nat} {l : List Char} :
    (emitLine st n l).filter (fun c => decide (c.line = n)) = emitLine st n l := by
  rw [List.filter_eq_self]
  intro c hc
  simp [emitLine_line hc]

/-- Later iterations never produce citations for earlier line
numbers. -/
theorem filter_scanLines_lt (ls : List (List Char)) (n : Nat) (st : Bool × Bool) (m : Nat)
    (hm : m < n) : (scanLines n st ls).filter (fun c => decide (c.line = m)) = [] := by
  rw [List.filter_eq_nil_iff]
  intro c hc
  obtain ⟨j0, st', _, hmem⟩ := scanLines_mem _ _ _ hc
  have := emitLine_line hmem
  simp [this]
  omega

/-- The citations of one line number are exactly what that line's
iteration emits, run at the tracker state folded over the earlier
lines. -/
theorem scanLines_filter : ∀ (ls : List (List Char)) (n : Nat) (st : Bool × Bool) (j : Nat),
    j < ls.length →
    (scanLines n st ls).filter (fun c => decide (c.line = n + j)) =
      emitLine ((ls.take j).foldl stepSt st) (n + j) (ls.getD j []) := by
  intro ls
  induction ls with
  | nil => intro n st j hj; simp at hj
  | cons l ls ih =>
    intro n st j hj
    simp only [scanLines, List.filter_append]
    cases j with
    | zero =>
      rw [Nat.add_zero, filter_emitLine_self, filter_scanLines_lt ls (n + 1) _ n (by omega)]
      simp
    | succ j =>
      rw [filter_emitLine_ne (by omega), List.nil_append,
        show n + (j + 1) = (n + 1) + j by omega, ih (n + 1) (stepSt st l) j (by simpa using hj)]
      simp

/-- While the acknowledgments flag is set, a line that is not a
two-hash heading emits nothing, whatever the bibliography flag. -/
theorem emitLine_ack_protected (b : Bool) (n : Nat) (l : List Char)
    (hh : hasHeading l = false) : emitLine (true, b) n l = [] := by
  simp only [emitLine]
  split_ifs with h1 h2 h3 h4 h5 <;> try rfl
  exfalso
  apply h4
  simp [ackAfter, hh]

/-- Claim C2 (amended): a two-hash heading line whose text matches the
source's acknowledgments pattern — the letter `A` or `a` followed by
the lowercase letters of "cknowledg" (so not, e.g., "ACKNOWLEDGMENTS"
in capitals) — starts an acknowledgments region: that heading line
yields no citations, every following line yields none while the flag is
set, and the two-hash heading line that ends the region (one not itself
matching the acknowledgments pattern) is scanned like any other line. -/
theorem c2_acknowledgments_region (content : List Char) (j : Nat)
    (hj : j < (splitNl content).length) :
    (hasAckHeading ((splitNl content).getD j []) = true →
      ∀ c ∈ scanContent content, c.line ≠ j + 1) ∧
    (ackStateAt (splitNl content) j = true →
      hasHeading ((splitNl content).getD j []) = false →
      ∀ c ∈ scanContent content, c.line ≠ j + 1) ∧
    (ackStateAt (splitNl content) j = true →
      hasHeading ((splitNl content).getD j []) = true →
      hasAckHeading ((splitNl content).getD j []) = false →
      bibStateAt (splitNl content) j = false →
      hasSub bibBeginLit ((splitNl content).getD j []) = false →
      hasSub bibEndLit ((splitNl content).getD j []) = false →
      ((splitNl content).getD j []).contains '@' = false →
      hasSub citeLit ((splitNl content).getD j []) = false →
      (scanContent content).filter (fun c => decide (c.line = j + 1)) =
        narrCitations (j + 1) ((splitNl content).getD j []) ++
          parenCitations (j + 1) ((splitNl content).getD j [])) := by
  have hchar : (scanContent content).filter (fun c => decide (c.line = j + 1)) =
      emitLine (ackStateAt (splitNl content) j, bibStateAt (splitNl content) j) (j + 1)
        ((splitNl content).getD j []) := by
    have h := scanLines_filter (splitNl content) 1 (false, false) j hj
    rw [foldl_stepSt_pair, Nat.add_comm 1 j] at h
    exact h
  refine ⟨?_, ?_, ?_⟩
  · intro hack c hc hline
    have hcf : c ∈ (scanContent content).filter (fun c => decide (c.line = j + 1)) :=
      List.mem_filter.mpr ⟨hc, by simp [hline]⟩
    rw [hchar] at hcf
    simp only [emitLine, hack, if_pos] at hcf
    simp at hcf
  · intro hackst hh c hc hline
    have hcf : c ∈ (scanContent content).filter (fun c => decide (c.line = j + 1)) :=
      List.mem_filter.mpr ⟨hc, by simp [hline]⟩
    rw [hchar, hackst, emitLine_ack_protected _ _ _ hh] at hcf
    simp at hcf
  · intro hackst hh hnack hbib hb1 hb2 hat hcite
    rw [hchar, hackst, hbib]
    simp only [emitLine, ackAfter, hnack, hb1, hb2, hh, hat, hcite]
    simp

/-- Counterexample for C2 as stated: a two-hash heading reading
"ACKNOWLEDGMENTS" contains "acknowledg" case-insensitively, yet the
next line still yields a citation, because the source pattern only
tolerates case variation on the initial letter. -/
theorem c2_counterexample :
    hasHeading (( "## ACKNOWLEDGMENTS" : String).toList) = true ∧
    hasSub (( "acknowledg" : String).toList)
      (lowerAll (( "## ACKNOWLEDGMENTS" : String).toList)) = true ∧
    hasAckHeading (( "## ACKNOWLEDGMENTS" : String).toList) = false ∧
    (scanContent (( "## ACKNOWLEDGMENTS\nSmith (2011) argues." : String).toList)).map
      (fun c => c.line) = [2] := by
  refine ⟨?_, ?_, ?_, ?_⟩ <;> decide

/-- Witness for C2: a real acknowledgments region suppresses its body
line, and the heading that ends it is scanned normally. -/
theorem c2_acknowledgments_region_witness :
    (ackStateAt (splitNl (( "## Acknowledgments\nSmith (2011) argues.\n## Next\nSuri (2011) y." : String).toList)) 1 = true ∧
      ∀ c ∈ scanContent (( "## Acknowledgments\nSmith (2011) argues.\n## Next\nSuri (2011) y." : String).toList),
        c.line ≠ 1 + 1) ∧
    (scanContent (( "## Acknowledgments\nSmith (2011) argues.\n## Next\nSuri (2011) y." : String).toList)).filter
        (fun c => decide (c.line = 2 + 1)) =
      narrCitations (2 + 1)
          ((splitNl (( "## Acknowledgments\nSmith (2011) argues.\n## Next\nSuri (2011) y." : String).toList)).getD 2 []) ++
        parenCitations (2 + 1)
          ((splitNl (( "## Acknowledgments\nSmith (2011) argues.\n## Next\nSuri (2011) y." : String).toList)).getD 2 []) :=
  ⟨⟨(by decide),
    (c2_acknowledgments_region
      (( "## Acknowledgments\nSmith (2011) argues.\n## Next\nSuri (2011) y." : String).toList) 1
      (by decide)).2.1 (by decide) (by decide)⟩,
    (c2_acknowledgments_region
      (( "## Acknowledgments\nSmith (2011) argues.\n## Next\nSuri (2011) y." : String).toList) 2
      (by decide)).2.2 (by decide) (by decide) (by decide) (by decide) (by decide) (by decide)
      (by decide) (by decide)⟩

/-- The claim's year-range shape: exactly a 4-digit year, a hyphen, and
a 4-digit year. -/
def isYearRangeShape (s : List Char) : Prop :=
  ∃ a b c d e f g h : Char, s = [a, b, c, d, '-', e, f, g, h] ∧
    isDigit09 a = true ∧ isDigit09 b = true ∧ isDigit09 c = true ∧ isDigit09 d = true ∧
    isDigit09 e = true ∧ isDigit09 f = true ∧ isDigit09 g = true ∧ isDigit09 h = true

/-- A parenthesized year range `(DDDD-DDDD)` standing at the head of
the list. -/
def yrSpanAtProp (cs : List Char) : Prop :=
  ∃ (a b c d e f g h : Char) (rest : List Char),
    cs = '(' :: a :: b :: c :: d :: '-' :: e :: f :: g :: h :: ')' :: rest ∧
    isDigit09 a = true ∧ isDigit09 b = true ∧ isDigit09 c = true ∧ isDigit09 d = true ∧
    isDigit09 e = true ∧ isDigit09 f = true ∧ isDigit09 g = true ∧ isDigit09 h = true

/-- The embedded anchored year-range test recognizes exactly the
claim's shape. -/
theorem isYrMatch_iff (s : List Char) : isYrMatch s = true ↔ isYearRangeShape s := by
  constructor
  · intro h
    unfold isYrMatch at h
    split at h
    · next a b c d e f g h2 =>
      simp only [Bool.and_eq_true] at h
      exact ⟨a, b, c, d, e, f, g, h2, rfl,
        h.1.1.1.1.1.1.1, h.1.1.1.1.1.1.2, h.1.1.1.1.1.2, h.1.1.1.1.2,
        h.1.1.1.2, h.1.1.2, h.1.2, h.2⟩
    · exact absurd h (by simp)
  · intro ⟨a, b, c, d, e, f, g, h2, heq, h1, h2d, h3, h4, h5, h6, h7, h8⟩
    subst heq
    simp [isYrMatch, h1, h2d, h3, h4, h5, h6, h7, h8]

/-- The year-range-at-position test recognizes exactly a parenthesized
range at the head. -/
theorem yrParenAt_iff (cs : List Char) : yrParenAt cs = true ↔ yrSpanAtProp cs := by
  constructor
  · intro h
    unfold yrParenAt at h
    split at h
    · next a b c d e f g h2 rest =>
      simp only [Bool.and_eq_true] at h
      exact ⟨a, b, c, d, e, f, g, h2, rest, rfl,
        h.1.1.1.1.1.1.1, h.1.1.1.1.1.1.2, h.1.1.1.1.1.2, h.1.1.1.1.2,
        h.1.1.1.2, h.1.1.2, h.1.2, h.2⟩
    · exact absurd h (by simp)
  · intro ⟨a, b, c, d, e, f, g, h2, rest, heq, h1, h2d, h3, h4, h5, h6, h7, h8⟩
    subst heq
    simp [yrParenAt, h1, h2d, h3, h4, h5, h6, h7, h8]

/-- The narrative year-range search finds exactly the texts containing
a parenthesized range somewhere. -/
theorem hasYrParen_iff : ∀ t : List Char,
    hasYrParen t = true ↔ ∃ i, yrSpanAtProp (t.drop i) := by
  intro t
  induction t with
  | nil =>
    simp only [hasYrParen]
    constructor
    · intro h; exact absurd h (by simp)
    · intro ⟨i, a, b, c, d, e, f, g, h2, rest, heq, _⟩
      rw [List.drop_nil] at heq
      exact absurd heq (by simp)
  | cons c0 rest0 ih =>
    simp only [hasYrParen, Bool.or_eq_true]
    constructor
    · intro h
      rcases h with h | h
      · exact ⟨0, (yrParenAt_iff _).mp h⟩
      · obtain ⟨i, hsp⟩ := ih.mp h
        exact ⟨i + 1, hsp⟩
    · intro ⟨i, hsp⟩
      cases i with
      | zero => exact Or.inl ((yrParenAt_iff _).mpr hsp)
      | succ i => exact Or.inr (ih.mpr ⟨i, hsp⟩)

/-- Claim C5 (amended): a parenthetical citation is never reported when
its whitespace-stripped bracketed content is exactly a year range, and
a narrative citation is never reported when its matched text contains a
parenthesized year range with no surrounding whitespace inside the
parentheses; a narrative span whose parenthetical content is a year
range padded with whitespace, such as `Smith (2010-2015 )`, IS
reported. -/
theorem c5_year_range_exclusion (content : List Char) (c : Citation)
    (h : c ∈ scanContent content) :
    (c.citation_type = CitKind.narrative → ¬ ∃ i, yrSpanAtProp (c.text.drop i)) ∧
    (c.citation_type = CitKind.parenthetical →
      ¬ isYearRangeShape (pyStrip ((c.text.drop 1).dropLast))) := by
  obtain ⟨n, l, h'⟩ := scanContent_mem h
  rcases h' with h' | h'
  · obtain ⟨col, t, _, hguard, rfl⟩ := mem_narrCitations h'
    refine ⟨fun _ hex => ?_, (fun hk => nomatch hk)⟩
    rw [← hasYrParen_iff] at hex
    have htext : (mkNarr n col t).text = t := rfl
    rw [htext, hguard] at hex
    cases hex
  · obtain ⟨col, t, _, hguard, rfl⟩ := mem_parenCitations h'
    refine ⟨(fun hk => nomatch hk), fun _ hsh => ?_⟩
    rw [← isYrMatch_iff] at hsh
    have htext : (mkParen n col t).text = t := rfl
    rw [htext, hguard] at hsh
    cases hsh

/-- Counterexample for C5 as stated: a narrative span whose bracketed
content strips to exactly a year range is still reported, because the
source's narrative exclusion requires the closing parenthesis to follow
the last digit immediately. -/
theorem c5_counterexample :
    (scanContent (( "Smith (2010-2015 )" : String).toList)).map
        (fun c => (c.citation_type, c.text)) =
      [(CitKind.narrative, ( "Smith (2010-2015 )" : String).toList)] ∧
    ( "Smith (2010-2015 )" : String).toList.drop 6 = ( "(2010-2015 )" : String).toList ∧
    pyStrip (((( "(2010-2015 )" : String).toList).drop 1).dropLast) =
      ( "2010-2015" : String).toList ∧
    isYrMatch (( "2010-2015" : String).toList) = true := by
  refine ⟨?_, ?_, ?_, ?_⟩ <;> decide

/-- Witness for C5: the amended statement applied to a concrete
document with one narrative citation. -/
theorem c5_year_range_exclusion_witness :
    (mkNarr 1 0 (( "Suri (2011)" : String).toList) ∈
      scanContent (( "Suri (2011) demonstrates." : String).toList)) ∧
    (((mkNarr 1 0 (( "Suri (2011)" : String).toList)).citation_type = CitKind.narrative →
      ¬ ∃ i, yrSpanAtProp ((mkNarr 1 0 (( "Suri (2011)" : String).toList)).text.drop i)) ∧
    ((mkNarr 1 0 (( "Suri (2011)" : String).toList)).citation_type = CitKind.parenthetical →
      ¬ isYearRangeShape
        (pyStrip (((mkNarr 1 0 (( "Suri (2011)" : String).toList)).text.drop 1).dropLast)))) :=
  ⟨(by decide),
    c5_year_range_exclusion (( "Suri (2011) demonstrates." : String).toList)
      (mkNarr 1 0 (( "Suri (2011)" : String).toList)) (by decide)⟩

/-- Inverting `Option.orElse`: the left alternative answered, or it
failed and the right one answered. -/
theorem orElse_eq_some {α : Type} {a : Option α} {f : Unit → Option α} {r : α}
    (h : a.orElse f = some r) : a = some r ∨ (a = none ∧ f () = some r) := by
  cases a with
  | some x => left; simpa [Option.orElse] using h
  | none => right; exact ⟨rfl, by simpa [Option.orElse] using h⟩

/-- A matcher respects its input when every answer it produces comes
from its continuation run at some suffix of the input. -/
def Resp (m : Matcher) : Prop :=
  ∀ (cs : List Char) (k : List Char → Option (List Char)) (r : List Char),
    m cs k = some r → ∃ cs2, cs2 <:+ cs ∧ k cs2 = some r

theorem resp_mChr (p : Char → Bool) : Resp (mChr p) := by
  intro cs k r h
  cases cs with
  | nil => simp [mChr] at h
  | cons c rest =>
    simp only [mChr] at h
    split_ifs at h
    exact ⟨rest, List.suffix_cons c rest, h⟩

theorem resp_mStr (lit : List Char) : Resp (mStr lit) := by
  intro cs k r h
  simp only [mStr] at h
  split_ifs at h
  exact ⟨cs.drop lit.length, List.drop_suffix _ _, h⟩

theorem resp_mStrCI (lit : List Char) : Resp (mStrCI lit) := by
  intro cs k r h
  simp only [mStrCI] at h
  split_ifs at h
  exact ⟨cs.drop lit.length, List.drop_suffix _ _, h⟩

theorem resp_mSeq {a b : Matcher} (ha : Resp a) (hb : Resp b) : Resp (mSeq a b) := by
  intro cs k r h
  obtain ⟨cs2, hs2, h2⟩ := ha cs _ r h
  obtain ⟨cs3, hs3, h3⟩ := hb cs2 _ r h2
  exact ⟨cs3, hs3.trans hs2, h3⟩

theorem resp_mAlt {a b : Matcher} (ha : Resp a) (hb : Resp b) : Resp (mAlt a b) := by
  intro cs k r h
  rcases orElse_eq_some h with h' | ⟨_, h'⟩
  · exact ha cs _ r h'
  · exact hb cs _ r h'

theorem resp_mOpt {a : Matcher} (ha : Resp a) : Resp (mOpt a) := by
  intro cs k r h
  rcases orElse_eq_some h with h' | ⟨_, h'⟩
  · exact ha cs _ r h'
  · exact ⟨cs, List.suffix_refl cs, h'⟩

theorem resp_mLookUpper : Resp mLookUpper := by
  intro cs k r h
  cases cs with
  | nil => simp [mLookUpper] at h
  | cons c rest =>
    simp only [mLookUpper] at h
    split_ifs at h
    exact ⟨c :: rest, List.suffix_refl _, h⟩

theorem resp_mStar {a : Matcher} (ha : Resp a) : ∀ f, Resp (mStar a f) := by
  intro f
  induction f with
  | zero => intro cs k r h; exact ⟨cs, List.suffix_refl cs, h⟩
  | succ f ih =>
    intro cs k r h
    rcases orElse_eq_some h with h' | ⟨_, h'⟩
    · obtain ⟨cs2, hs2, h2⟩ := ha cs _ r h'
      obtain ⟨cs3, hs3, h3⟩ := ih cs2 _ r h2
      exact ⟨cs3, hs3.trans hs2, h3⟩
    · exact ⟨cs, List.suffix_refl cs, h'⟩

theorem resp_mStarL {a : Matcher} (ha : Resp a) : ∀ f, Resp (mStarL a f) := by
  intro f
  induction f with
  | zero => intro cs k r h; exact ⟨cs, List.suffix_refl cs, h⟩
  | succ f ih =>
    intro cs k r h
    rcases orElse_eq_some h with h' | ⟨_, h'⟩
    · exact ⟨cs, List.suffix_refl cs, h'⟩
    · obtain ⟨cs2, hs2, h2⟩ := ha cs _ r h'
      obtain ⟨cs3, hs3, h3⟩ := ih cs2 _ r h2
      exact ⟨cs3, hs3.trans hs2, h3⟩

theorem resp_wsPlus (f : Nat) : Resp (wsPlus f) :=
  resp_mSeq (resp_mChr _) (resp_mStar (resp_mChr _) f)

theorem resp_wsStar (f : Nat) : Resp (wsStar f) := resp_mStar (resp_mChr _) f

theorem resp_digitPlus (f : Nat) : Resp (digitPlus f) :=
  resp_mSeq (resp_mChr _) (resp_mStar (resp_mChr _) f)

theorem resp_nameTok (f : Nat) : Resp (nameTok f) :=
  resp_mSeq (resp_mChr _) (resp_mSeq (resp_mChr _) (resp_mStar (resp_mChr _) f))

theorem resp_lowerCont (f : Nat) : Resp (lowerCont f) :=
  resp_mSeq (resp_mSeq (resp_mChr _) (resp_mStar (resp_mChr _) f))
    (resp_mSeq (resp_mChr _) (resp_mStar (resp_mChr _) f))

theorem resp_nameFull (f : Nat) : Resp (nameFull f) :=
  resp_mSeq (resp_nameTok f) (resp_mStar (resp_lowerCont f) f)

theorem resp_narrConn (f : Nat) : Resp (narrConn f) :=
  resp_mSeq
    (resp_mAlt (resp_mSeq (resp_mChr _) (resp_mSeq (resp_wsPlus f) (resp_mStr _)))
      (resp_mAlt (resp_mSeq (resp_wsPlus f) (resp_mStr _))
        (resp_mAlt (resp_mChr _) (resp_mSeq (resp_wsPlus f) (resp_mChr _)))))
    (resp_wsPlus f)

theorem resp_etAlOpt (f : Nat) : Resp (etAlOpt f) :=
  resp_mOpt (resp_mSeq (resp_wsPlus f)
    (resp_mSeq (resp_mStr _)
      (resp_mSeq (resp_wsPlus f) (resp_mSeq (resp_mStr _) (resp_mOpt (resp_mChr _))))))

theorem resp_narrLocOpt (f : Nat) : Resp (narrLocOpt f) :=
  resp_mOpt (resp_mSeq (resp_mChr _)
    (resp_mSeq (resp_wsStar f)
      (resp_mSeq
        (resp_mAlt (resp_mSeq (resp_mSeq (resp_mChr _) (resp_mStar (resp_mChr _) f)) (resp_mOpt (resp_mChr _)))
          (resp_mAlt (resp_mSeq (resp_mStr _) (resp_mOpt (resp_mChr _)))
            (resp_mSeq (resp_mStr _) (resp_mOpt (resp_mChr _)))))
        (resp_mSeq (resp_wsStar f)
          (resp_mSeq (resp_digitPlus f) (resp_mOpt (resp_mSeq (resp_mChr _) (resp_digitPlus f))))))))

theorem resp_narrAuthors (f : Nat) : Resp (narrAuthors f) :=
  resp_mSeq (resp_nameFull f) (resp_mStar (resp_mSeq (resp_narrConn f) (resp_nameFull f)) f)

theorem resp_parenConn (f : Nat) : Resp (parenConn f) :=
  resp_mAlt (resp_mSeq (resp_wsPlus f) (resp_mSeq (resp_mStr _) (resp_wsPlus f)))
    (resp_mAlt (resp_mSeq (resp_wsPlus f) (resp_mSeq (resp_mChr _) (resp_wsPlus f)))
      (resp_mAlt (resp_mSeq (resp_mChr _) (resp_wsPlus f))
        (resp_mSeq (resp_wsPlus f) resp_mLookUpper)))

/-- A year token is never empty. -/
theorem yearTokenAt_ne_nil {c2 g : List Char} (h : yearTokenAt c2 = some g) : g ≠ [] := by
  unfold yearTokenAt at h
  split_ifs at h with h1 h2
  · cases h
    intro he
    simp only [Bool.and_eq_true, decide_eq_true_eq] at h1
    rw [he] at h1
    exact absurd h1.1 (by simp)
  · cases h
    decide

/-- A list starting with the forthcoming literal has that literal as
its year token (the digit branch cannot fire on the letter `f`). -/
theorem yearTokenAt_fort {c2 : List Char} (h : fortLit.isPrefixOf c2 = true) :
    yearTokenAt c2 = some fortLit := by
  obtain ⟨tl, rfl⟩ := List.isPrefixOf_iff_prefix.mp h
  unfold yearTokenAt
  rw [List.take_append_of_le_length (by decide)]
  have hp : fortLit.isPrefixOf (fortLit ++ tl) = true :=
    List.isPrefixOf_iff_prefix.mpr ⟨tl, rfl⟩
  rw [if_neg (by decide), if_pos hp]

/-- Four leading digits make the year token. -/
theorem yearTokenAt_digits {a b c d : Char} {rest : List Char}
    (ha : isDigit09 a = true) (hb : isDigit09 b = true)
    (hc : isDigit09 c = true) (hd : isDigit09 d = true) :
    yearTokenAt (a :: b :: c :: d :: rest) = some [a, b, c, d] := by
  unfold yearTokenAt
  simp [ha, hb, hc, hd]

/-- Inverting `\d{4}`: four digit characters were consumed. -/
theorem digit4_some {cs r : List Char} {k : List Char → Option (List Char)}
    (h : digit4 cs k = some r) :
    ∃ a b c d rest, cs = a :: b :: c :: d :: rest ∧
      isDigit09 a = true ∧ isDigit09 b = true ∧ isDigit09 c = true ∧ isDigit09 d = true ∧
      k rest = some r := by
  rcases cs with _ | ⟨a, _ | ⟨b, _ | ⟨c, _ | ⟨d, rest⟩⟩⟩⟩
  · simp [digit4, mSeq, mChr] at h
  · simp [digit4, mSeq, mChr] at h
  · simp [digit4, mSeq, mChr] at h
  · simp [digit4, mSeq, mChr] at h
  · simp only [digit4, mSeq, mChr] at h
    split_ifs at h with h1 h2 h3 h4
    exact ⟨a, b, c, d, rest, rfl, h1, h2, h3, h4, h⟩

/-- Inverting the year expression: the input carries a year token of
length at most the consumed amount, and the continuation ran on the
rest. -/
theorem yearCore_some {c2 r : List Char} {k : List Char → Option (List Char)}
    (h : yearCore c2 k = some r) :
    ∃ g m, yearTokenAt c2 = some g ∧ g.length ≤ m ∧ m ≤ c2.length ∧
      k (c2.drop m) = some r := by
  simp only [yearCore, mAlt] at h
  rcases orElse_eq_some h with h' | ⟨_, h'⟩
  · simp only [mStr] at h'
    split_ifs at h' with hp
    have hlen : fortLit.length = 11 := by decide
    obtain ⟨tl, htl⟩ := List.isPrefixOf_iff_prefix.mp hp
    refine ⟨fortLit, 11, yearTokenAt_fort hp, by decide, ?_, ?_⟩
    · rw [← htl]
      have h11 : fortLit.length = 11 := by decide
      simp
      omega
    · rw [← hlen]
      exact h'
  · obtain ⟨a, b, c, d, rest, rfl, ha, hb, hc, hd, hk⟩ := digit4_some h'
    rcases orElse_eq_some hk with h2 | ⟨_, h2⟩
    · cases rest with
      | nil => simp [mChr] at h2
      | cons x rest2 =>
        simp only [mChr] at h2
        split_ifs at h2
        exact ⟨[a, b, c, d], 5, yearTokenAt_digits ha hb hc hd, by simp, by simp, h2⟩
    · exact ⟨[a, b, c, d], 4, yearTokenAt_digits ha hb hc hd, by simp, by simp, h2⟩

/-- The closing tail `[^)]*\)` consumes at least its parenthesis and
leaves a suffix. -/
theorem closeTail_lt {f : Nat} {c4 r : List Char} (h : closeTail f c4 some = some r) :
    r.length < c4.length := by
  obtain ⟨cs2, hs2, h2⟩ := resp_mStar (resp_mChr isNotClose) f c4 _ r h
  cases cs2 with
  | nil => simp [mChr] at h2
  | cons c rest =>
    simp only [mChr] at h2
    split_ifs at h2
    cases h2
    have := hs2.length_le
    simp at this
    omega

/-- Truncating after the year token keeps the year token. -/
theorem yearTokenAt_take {c2 g : List Char} (h : yearTokenAt c2 = some g) {m : Nat}
    (hm : g.length ≤ m) : yearTokenAt (c2.take m) = some g := by
  unfold yearTokenAt at h ⊢
  split_ifs at h with h1 h2
  · cases h
    have hg4 : (c2.take 4).length = 4 := by
      simp only [Bool.and_eq_true, decide_eq_true_eq] at h1
      exact h1.1
    have hm4 : 4 ≤ m := by
      have := hg4 ▸ hm
      exact this
    have h44 : List.take 4 (List.take m c2) = List.take 4 c2 := by
      rw [List.take_take]
      congr 1
      omega
    rw [h44, if_pos h1]
  · cases h
    obtain ⟨tl, htl⟩ := List.isPrefixOf_iff_prefix.mp h2
    have h44 : List.take 4 (List.take m c2) = List.take 4 c2 := by
      rw [List.take_take]
      congr 1
      have h11 : fortLit.length = 11 := by decide
      omega
    rw [h44, if_neg h1]
    have hp2 : fortLit.isPrefixOf (List.take m c2) = true := by
      apply List.isPrefixOf_iff_prefix.mpr
      rw [← htl, List.take_append_eq_append_take, List.take_of_length_le hm]
      exact ⟨_, rfl⟩
    rw [if_pos hp2]

/-- Inverting a single-character matcher. -/
theorem mChr_some {p : Char → Bool} {cs r : List Char} {k : List Char → Option (List Char)}
    (h : mChr p cs k = some r) :
    ∃ c rest, cs = c :: rest ∧ p c = true ∧ k rest = some r := by
  cases cs with
  | nil => simp [mChr] at h
  | cons c rest =>
    simp only [mChr] at h
    split_ifs at h with hc
    exact ⟨c, rest, rfl, hc, h⟩

/-- A suffix is what dropping its complement leaves. -/
theorem suffix_drop {s cs : List Char} (h : s <:+ cs) :
    cs.drop (cs.length - s.length) = s := by
  obtain ⟨pre, rfl⟩ := h
  have hl : (pre ++ s).length - s.length = pre.length := by simp
  rw [hl, List.drop_left]

/-- Dropping from a take is taking from a drop. -/
theorem take_then_drop (l : List Char) (i e : Nat) (h : i ≤ e) :
    (l.take e).drop i = (l.drop i).take (e - i) := by
  rw [List.take_drop]
  congr 2
  omega

/-- Every narrative match contains an opening parenthesis followed by a
year token, and the token ends inside the consumed span. -/
theorem narrM_year {f : Nat} {cs r : List Char} (h : narrM f cs some = some r) :
    ∃ c2 g, ('(' :: c2) <:+ cs ∧ yearTokenAt c2 = some g ∧
      r.length + g.length ≤ c2.length := by
  simp only [narrM, mSeq] at h
  obtain ⟨cs1, hs1, h1⟩ := resp_narrAuthors f cs _ r h
  obtain ⟨cs2, hs2, h2⟩ := resp_etAlOpt f cs1 _ r h1
  simp only [narrTail, mSeq] at h2
  obtain ⟨cs3, hs3, h3⟩ := resp_wsStar f cs2 _ r h2
  obtain ⟨c0, c2, rfl, hc0, h4⟩ := mChr_some h3
  obtain ⟨g, m, hyt, hgm, hmlen, hk⟩ := yearCore_some h4
  obtain ⟨c4, hs4, h5⟩ := resp_narrLocOpt f (c2.drop m) _ r hk
  have hlt := closeTail_lt h5
  have hc4len : c4.length ≤ (c2.drop m).length := hs4.length_le
  have hc0' : c0 = '(' := of_decide_eq_true hc0
  subst hc0'
  refine ⟨c2, g, hs3.trans (hs2.trans hs1), hyt, ?_⟩
  simp only [List.length_drop] at hc4len
  omega

/-- Every parenthetical match opens with a parenthesis and contains a
year token strictly inside the parentheses. -/
theorem parenM_year {f : Nat} {cs r : List Char} (h : parenM f cs some = some r) :
    ∃ cs0 c2 g, cs = '(' :: cs0 ∧ c2 <:+ cs0 ∧ yearTokenAt c2 = some g ∧
      r.length + g.length + 1 ≤ c2.length := by
  simp only [parenM, mSeq] at h
  obtain ⟨c0, cs0, rfl, hc0, h1⟩ := mChr_some h
  obtain ⟨cs1, hs1, h2⟩ := resp_mStarL (resp_mChr isNotClose) f cs0 _ r h1
  obtain ⟨cs2, hs2, h3⟩ := resp_nameTok f cs1 _ r h2
  obtain ⟨cs3, hs3, h4⟩ :=
    resp_mStar (resp_mSeq (resp_parenConn f) (resp_nameTok f)) f cs2 _ r h3
  obtain ⟨cs4, hs4, h5⟩ := resp_etAlOpt f cs3 _ r h4
  obtain ⟨cs5, hs5, h6⟩ := resp_wsStar f cs4 _ r h5
  obtain ⟨cs6, hs6, h7⟩ := resp_mOpt (resp_mChr _) cs5 _ r h6
  obtain ⟨c2, hs7, h8⟩ := resp_wsStar f cs6 _ r h7
  obtain ⟨g, m, hyt, hgm, hmlen, hk⟩ := yearCore_some h8
  have hlt := closeTail_lt hk
  have hc0' : c0 = '(' := of_decide_eq_true hc0
  subst hc0'
  refine ⟨cs0, c2, g, rfl,
    hs7.trans (hs6.trans (hs5.trans (hs4.trans (hs3.trans (hs2.trans hs1))))), hyt, ?_⟩
  simp only [List.length_drop] at hlt
  omega

/-- A found open-parenthesis year group is never empty. -/
theorem searchOpenYear_sound : ∀ {t g : List Char}, searchOpenYear t = some g → g ≠ [] := by
  intro t
  induction t with
  | nil => intro g h; simp [searchOpenYear] at h
  | cons c rest ih =>
    intro g h
    unfold searchOpenYear at h
    split_ifs at h with hc
    · cases hyt : yearTokenAt rest with
      | some g2 =>
        rw [hyt] at h
        cases h
        exact yearTokenAt_ne_nil hyt
      | none =>
        rw [hyt] at h
        exact ih h
    · exact ih h

/-- A found year group is never empty. -/
theorem searchYear_sound : ∀ {t g : List Char}, searchYear t = some g → g ≠ [] := by
  intro t
  induction t with
  | nil => intro g h; simp [searchYear] at h
  | cons c rest ih =>
    intro g h
    unfold searchYear at h
    cases hyt : yearTokenAt (c :: rest) with
    | some g2 =>
      rw [hyt] at h
      cases h
      exact yearTokenAt_ne_nil hyt
    | none =>
      rw [hyt] at h
      exact ih h

/-- The open-parenthesis year search succeeds whenever some position
carries a parenthesis followed by a year token. -/
theorem searchOpenYear_complete : ∀ (t : List Char) (i : Nat) (u : List Char),
    t.drop i = '(' :: u → (yearTokenAt u).isSome = true →
    (searchOpenYear t).isSome = true := by
  intro t
  induction t with
  | nil =>
    intro i u h hy
    rw [List.drop_nil] at h
    exact absurd h (by simp)
  | cons c rest ih =>
    intro i u h hy
    cases i with
    | zero =>
      rw [List.drop_zero] at h
      injection h with h1 h2
      subst h1
      subst h2
      unfold searchOpenYear
      rw [if_pos rfl]
      cases hyt : yearTokenAt rest with
      | none => rw [hyt] at hy; simp at hy
      | some g => simp [hyt]
    | succ i =>
      have h' : rest.drop i = '(' :: u := by simpa using h
      unfold searchOpenYear
      by_cases hc : c = '('
      · rw [if_pos hc]
        cases hyt : yearTokenAt rest with
        | some g => simp [hyt]
        | none => simpa [hyt] using ih i u h' hy
      · rw [if_neg hc]
        exact ih i u h' hy

/-- The year search succeeds whenever some position carries a year
token. -/
theorem searchYear_complete : ∀ (t : List Char) (i : Nat),
    (yearTokenAt (t.drop i)).isSome = true → (searchYear t).isSome = true := by
  intro t
  induction t with
  | nil =>
    intro i h
    rw [List.drop_nil] at h
    have hnil : yearTokenAt ([] : List Char) = none := by decide
    rw [hnil] at h
    simp at h
  | cons c rest ih =>
    intro i h
    cases i with
    | zero =>
      rw [List.drop_zero] at h
      unfold searchYear
      cases hy : yearTokenAt (c :: rest) with
      | none => rw [hy] at h; simp at h
      | some g => simp [hy]
    | succ i =>
      unfold searchYear
      cases hy : yearTokenAt (c :: rest) with
      | some g => simp [hy]
      | none =>
        simp only [hy]
        exact ih i (by simpa using h)

/-- Claim C9: the year field of every citation is non-empty — both
pattern families require a four-digit year or the forthcoming literal
inside the match, and the year extraction always finds one. -/
theorem c9_year_nonempty (content : List Char) (c : Citation)
    (h : c ∈ scanContent content) : c.year ≠ [] := by
  obtain ⟨n, l, h'⟩ := scanContent_mem h
  rcases h' with h' | h'
  · obtain ⟨col, t, hfa, _, rfl⟩ := mem_narrCitations h'
    obtain ⟨cs2, r, hm, ht, hne⟩ := mem_findAll _ _ _ hfa
    obtain ⟨c2, g, hsuf, hyt, hlen⟩ := narrM_year hm
    have hL1 : c2.length + 1 ≤ cs2.length := by simpa using hsuf.length_le
    have hdropi : cs2.drop (cs2.length - (c2.length + 1)) = '(' :: c2 := by
      have h0 := suffix_drop hsuf
      simpa using h0
    have hie : cs2.length - (c2.length + 1) ≤ cs2.length - r.length := by omega
    have htdrop : t.drop (cs2.length - (c2.length + 1)) =
        ('(' :: c2).take ((cs2.length - r.length) - (cs2.length - (c2.length + 1))) := by
      rw [ht, take_then_drop _ _ _ hie, hdropi]
    obtain ⟨d, hd1, hd2⟩ :
        ∃ d, (cs2.length - r.length) - (cs2.length - (c2.length + 1)) = d + 1 ∧
          g.length ≤ d := by
      refine ⟨(cs2.length - r.length) - (cs2.length - (c2.length + 1)) - 1, ?_, ?_⟩ <;> omega
    have htdrop2 : t.drop (cs2.length - (c2.length + 1)) = '(' :: c2.take d := by
      rw [htdrop, hd1, List.take_succ_cons]
    have hsome : (yearTokenAt (c2.take d)).isSome = true := by
      rw [yearTokenAt_take hyt hd2]
      rfl
    have hsearch := searchOpenYear_complete t _ _ htdrop2 hsome
    have hy : (mkNarr n col t).year =
        (match searchOpenYear t with | some g2 => g2 | none => ([] : List Char)) := rfl
    rw [hy]
    cases hres : searchOpenYear t with
    | none => rw [hres] at hsearch; simp at hsearch
    | some g2 => exact searchOpenYear_sound hres
  · obtain ⟨col, t, hfa, _, rfl⟩ := mem_parenCitations h'
    obtain ⟨cs2, r, hm, ht, hne⟩ := mem_findAll _ _ _ hfa
    obtain ⟨cs0, c2, g, hcs, hsuf, hyt, hlen⟩ := parenM_year hm
    have hcl : cs2.length = cs0.length + 1 := by rw [hcs]; rfl
    have hc2le : c2.length ≤ cs0.length := hsuf.length_le
    obtain ⟨e2, he2⟩ : ∃ e2, cs2.length - r.length = e2 + 1 :=
      ⟨cs2.length - r.length - 1, by omega⟩
    have he2' : ('(' :: cs0).length - r.length = e2 + 1 := by
      rw [← hcs]
      exact he2
    have ht2 : t = '(' :: cs0.take e2 := by
      rw [ht, hcs, he2', List.take_succ_cons]
    have ht3 : t.drop 1 = cs0.take e2 := by rw [ht2]; rfl
    have hee : e2 ≤ cs0.length := by omega
    have hct : (t.drop 1).dropLast = cs0.take (e2 - 1) := by
      rw [ht3, List.dropLast_eq_take, List.length_take, List.take_take]
      congr 1
      omega
    have hdropi : cs0.drop (cs0.length - c2.length) = c2 := suffix_drop hsuf
    have hile : cs0.length - c2.length ≤ e2 - 1 := by omega
    have hdrop2 : ((t.drop 1).dropLast).drop (cs0.length - c2.length) =
        c2.take ((e2 - 1) - (cs0.length - c2.length)) := by
      rw [hct, take_then_drop _ _ _ hile, hdropi]
    have hglen : g.length ≤ (e2 - 1) - (cs0.length - c2.length) := by omega
    have hsome : (yearTokenAt (((t.drop 1).dropLast).drop (cs0.length - c2.length))).isSome
        = true := by
      rw [hdrop2, yearTokenAt_take hyt hglen]
      rfl
    have hsearch := searchYear_complete ((t.drop 1).dropLast) (cs0.length - c2.length) hsome
    have hy : (mkParen n col t).year =
        (match searchYear ((t.drop 1).dropLast) with
          | some g2 => g2
          | none => ([] : List Char)) := rfl
    rw [hy]
    cases hres : searchYear ((t.drop 1).dropLast) with
    | none => rw [hres] at hsearch; simp at hsearch
    | some g2 => exact searchYear_sound hres

/-- Witness for C9: the theorem applied to a concrete document with
one narrative citation. -/
theorem c9_year_nonempty_witness :
    (mkNarr 1 0 (( "Suri (2011)" : String).toList) ∈
      scanContent (( "Suri (2011) demonstrates." : String).toList)) ∧
    (mkNarr 1 0 (( "Suri (2011)" : String).toList)).year ≠ [] :=
  ⟨(by decide),
    c9_year_nonempty (( "Suri (2011) demonstrates." : String).toList)
      (mkNarr 1 0 (( "Suri (2011)" : String).toList)) (by decide)⟩
